import Mathlib

/-!
# populate.c: the directory-walking worker pool

A shallow embedding of `populate.c` (portable lister, `BULK 0`): the pop loop of
`threadmain`, the per-entry body of `process_dir_slow` with its call of `insert`,
the fold of a directory's subtotal into `global_size`, and the seeding done by
`main`.  Each critical section of the program (the code between
`pthread_mutex_lock` and `pthread_mutex_unlock`) is one atomic step of a worker; a
schedule is a list of such steps.  The file system is a fixed function from paths
to listings; the calls of the pthread library are taken to succeed.  Sums of
`off_t` values are kept to 64 bits, and a store past the end of the array
`global_queue` stops the model.
-/

namespace Populate

/-! ## Compile-time switches -/

/-- The `#define`s at the top of populate.c that the modelled code reads
(lines 3, 4, 6 and 8).  `BULK` is 0 in the source, so only `process_dir_slow`
is modelled; `PREPARE` only selects how `insert` talks to sqlite. -/
structure Config where
  NTHREADS : Nat
  MAXDIRS : Nat
  RECURSIVE : Bool
  OUTPUT : Bool
deriving DecidableEq, Repr

/-- The values written in populate.c: `NTHREADS 32`, `MAXDIRS 1024`,
`RECURSIVE 1`, `OUTPUT 0`. -/
def sourceConfig : Config := ⟨32, 1024, true, false⟩

/-! ## The file system as seen through opendir / readdir / fstatat -/

/-- The file type bits of `st_mode`; `lnk` is what `fstatat` reports for a symbolic
link under `AT_SYMLINK_NOFOLLOW`. -/
inductive FileType where
  | dir
  | reg
  | lnk
  | other
deriving DecidableEq, Repr

/-- The macro `S_ISDIR`. -/
def S_ISDIR : FileType → Bool
  | .dir => true
  | _ => false

/-- The macro `S_ISREG`. -/
def S_ISREG : FileType → Bool
  | .reg => true
  | _ => false

/-- The fields of `struct stat` the program reads.  The size of a file is a natural
number; the sums the program forms of sizes are `off_t` values (see `off_t`). -/
structure Stat where
  st_mode : FileType
  st_mtime : Int
  st_size : Nat
deriving DecidableEq, Repr

/-- One entry returned by `readdir`, with the result of the `fstatat` call made on
it (line 228); `none` is a failing `fstatat`. -/
structure Dirent where
  d_name : String
  st : Option Stat
deriving DecidableEq, Repr

/-- What an opened directory yields: the entries `readdir` returns before it
returns NULL, whether that NULL comes with `errno` set (line 265), and whether
`closedir` fails (line 269). -/
structure DirStream where
  entries : List Dirent
  readdirFails : Bool
  closedirFails : Bool
deriving DecidableEq, Repr

/-- The file system: `opendir(path)`; `none` is a NULL result (line 218). -/
abbrev FS := String → Option DirStream

/-- A row handed to `insert` (line 258): path, mtime, size. -/
structure Record where
  path : String
  mtime : Int
  size : Nat
deriving DecidableEq, Repr

/-- The ways the modelled process stops short.  All but the last are the calls of
`die` that the modelled code can make, with the argument of the format string.
The last, `overrun`, is no call of `die`: it is the store
`global_queue[global_queue_len++] = path` made with `global_queue_len = MAXDIRS`,
past the end of the array (line 42); the behaviour of the program is undefined
from there, and the model says nothing of what follows. -/
inductive Fatal where
  | badArguments
  | opendir (path : String)
  | stat (d_name : String)
  | readdir (path : String)
  | closedir (path : String)
  | sqlite3_step
  | overrun
deriving DecidableEq, Repr

/-- The value an `off_t` variable holds when the exact result of a sum is `n`: the
result kept to 64 bits, two's complement.  (Overflow of a signed sum is undefined
in C; wrapping is what the build does.)  The constants are 2^63 and 2^64. -/
def off_t (n : Int) : Int :=
  (n + 9223372036854775808) % 18446744073709551616 - 9223372036854775808

/-- The child path built by `asprintf(&child_path, "%s/%s", path, e->d_name)`
(lines 235 and 255). -/
def childPath (path d_name : String) : String := path ++ "/" ++ d_name

/-! ## insert -/

/-- The function `insert` (lines 67-93) on the table `metadata`, emptied by the
preamble.  The column `name` is the PRIMARY KEY of the table (line 30): sqlite
refuses a row whose name the table already holds, `sqlite3_step` then does not
return `SQLITE_DONE`, and line 83 dies.  No other failure of sqlite is modelled. -/
def insert (table : List Record) (r : Record) : Except Fatal (List Record) :=
  if r.path ∈ table.map Record.path then .error .sqlite3_step else .ok (table ++ [r])

/-- Lines 257-259 of the loop body: the call of `insert`, compiled in under
`OUTPUT`, for the regular file the entry is (if it is one). -/
def output (cfg : Config) (table : List Record) (regular : Option Record) :
    Except Fatal (List Record) :=
  match regular with
  | some r => if cfg.OUTPUT then insert table r else .ok table
  | none => .ok table

/-! ## The array global_queue -/

/-- The store `global_queue[global_queue_len++] = path` (lines 241 and 362) into the
array `global_queue[MAXDIRS]` (line 42).  The code makes no test of
`global_queue_len` against `MAXDIRS`: with fewer than `MAXDIRS` paths pending the
path is stored behind them; with `MAXDIRS` paths pending the store is past the end
of the array and the result is `none` (undefined behaviour). -/
def push (cfg : Config) (global_queue : List String) (path : String) : Option (List String) :=
  if global_queue.length < cfg.MAXDIRS then some (global_queue ++ [path]) else none

/-! ## process_dir_slow -/

/-- What one iteration of the `while` loop of `process_dir_slow` does to the
outside: the path it stores in `global_queue` (lines 233-250), the regular file it
meets (lines 253-263; handed to `insert` when `OUTPUT`), and what it adds to
`total_size` (line 260; 0 stands for an entry that is no regular file, for which
line 260 is not run: adding 0 leaves an `off_t` value as it is). -/
structure EntryEffect where
  push : Option String
  regular : Option Record
  size : Nat
deriving DecidableEq, Repr

/-- The body of the `while` loop of `process_dir_slow` (lines 228-263) for one
entry of the directory `path`. -/
def loopBody (cfg : Config) (path : String) (e : Dirent) : Except Fatal EntryEffect :=
  match e.st with
  | none => .error (.stat e.d_name)
  | some st =>
    .ok
      { push :=
          if cfg.RECURSIVE && (S_ISDIR st.st_mode && (e.d_name != "." && e.d_name != "..")) then
            some (childPath path e.d_name)
          else none
        regular :=
          if S_ISREG st.st_mode then some ⟨childPath path e.d_name, st.st_mtime, st.st_size⟩
          else none
        size := if S_ISREG st.st_mode then st.st_size else 0 }

/-- How a call of `process_dir_slow` ends: the `total_size` it returns (line 273),
or the `die` that ended the process. -/
inductive DirResult where
  | returned (total_size : Int)
  | died (f : Fatal)
deriving DecidableEq, Repr

/-- One call of `process_dir_slow` seen from outside: the pending queue and the
table `metadata` after the call, and how the call ended. -/
structure DirRun where
  global_queue : List String
  inserted : List Record
  result : DirResult
deriving DecidableEq, Repr

/-- The `while` loop of `process_dir_slow` over the entries still to be read,
followed by the checks of lines 265-273: for each entry `fstatat`, then the store
of the child path (a directory), then the call of `insert` and the addition to
`total_size` (a regular file). -/
def listLoop (cfg : Config) (path : String) (readdirFails closedirFails : Bool) :
    List Dirent → List String → List Record → Int → DirRun
  | [], global_queue, inserted, total_size =>
    if readdirFails then ⟨global_queue, inserted, .died (.readdir path)⟩
    else if closedirFails then ⟨global_queue, inserted, .died (.closedir path)⟩
    else ⟨global_queue, inserted, .returned total_size⟩
  | e :: rest, global_queue, inserted, total_size =>
    match loopBody cfg path e with
    | .error f => ⟨global_queue, inserted, .died f⟩
    | .ok eff =>
      let stored : Option (List String) :=
        match eff.push with
        | none => some global_queue
        | some child => push cfg global_queue child
      match stored with
      | none => ⟨global_queue, inserted, .died .overrun⟩
      | some queue =>
        match output cfg inserted eff.regular with
        | .error f => ⟨queue, inserted, .died f⟩
        | .ok table =>
          listLoop cfg path readdirFails closedirFails rest queue table
            (off_t (total_size + eff.size))

/-- The function `process_dir_slow` (lines 214-274), run with no other thread
touching the queue: `global_queue` are the paths pending and `table` the rows of
`metadata` at the call. -/
def process_dir_slow (cfg : Config) (fs : FS) (path : String) (global_queue : List String)
    (table : List Record) : DirRun :=
  match fs path with
  | none => ⟨global_queue, table, .died (.opendir path)⟩
  | some d => listLoop cfg path d.readdirFails d.closedirFails d.entries global_queue table 0

/-! ## threadmain -/

/-- The three ways out of one evaluation of the code at `again:` (lines 294-309). -/
inductive PopResult where
  | path (p : String)
  | exit
  | wait
deriving DecidableEq, Repr

/-- One evaluation of the code at label `again:` (lines 294-309) on the pending
queue and `global_active`.  The queue is the array `global_queue[0 .. global_queue_len)`
in index order, so `global_queue[--global_queue_len]` takes the last element. -/
def again (cfg : Config) (global_queue : List String) (global_active : Int) :
    PopResult × List String × Int :=
  match global_queue.getLast? with
  | some p => (.path p, global_queue.dropLast, global_active + 1)
  | none =>
    if !cfg.RECURSIVE || global_active == 0 then (.exit, global_queue, global_active)
    else (.wait, global_queue, global_active)

/-- Where a worker thread stands in `threadmain`. -/
inductive Worker where
  /-- About to take the mutex and evaluate `again:` (top of the `for`, or woken). -/
  | ready
  /-- Blocked in `pthread_cond_wait` (line 305). -/
  | waiting
  /-- Left the pop loop with a path; `process_dir_slow` has not called `opendir` yet. -/
  | popped (path : String)
  /-- Inside the `while` loop of `process_dir_slow`. -/
  | listing (path : String) (rest : List Dirent) (readdirFails closedirFails : Bool)
      (total_size : Int)
  /-- Took the `break` of line 316. -/
  | exited
deriving DecidableEq, Repr

/-- A worker blocked on the condition variable. -/
def Worker.isWaiting : Worker → Bool
  | .waiting => true
  | _ => false

/-- A worker that has popped a directory and not yet folded its subtotal. -/
def Worker.isProcessing : Worker → Bool
  | .popped _ => true
  | .listing _ _ _ _ _ => true
  | _ => false

/-- A worker that has left its loop. -/
def Worker.isExited : Worker → Bool
  | .exited => true
  | _ => false

/-- What a traversal meets: a directory it opens, a regular file the loop body
finds, or (only in the independent walk; the program dies there) a path on which
`opendir`, `fstatat`, `readdir` or `closedir` fails. -/
inductive Event where
  | opendir (path : String)
  | regular (r : Record)
  | unreadable (path : String)
deriving DecidableEq, Repr

/-- The globals of populate.c (lines 42-45), the position of every thread, how the
process stopped short if it did, the rows of the table `metadata`, and the history
of directories opened and regular files met (no step reads the history). -/
structure State where
  global_queue : List String
  global_active : Int
  global_size : Int
  workers : List Worker
  died : Option Fatal
  inserted : List Record
  history : List Event
deriving DecidableEq, Repr

/-- The value of `global_queue_len`. -/
def State.global_queue_len (s : State) : Nat := s.global_queue.length

/-- The call `pthread_cond_signal`: wakes one blocked worker when there is one; `k`
is the scheduler's choice of which. -/
def cond_signal (ws : List Worker) (k : Nat) : Option (List Worker) :=
  match ws[k]? with
  | some .waiting => some (ws.set k .ready)
  | _ => if ws.any Worker.isWaiting then none else some ws

/-- The call `pthread_cond_broadcast`: wakes every blocked worker. -/
def cond_broadcast (ws : List Worker) : List Worker :=
  ws.map fun w => if w.isWaiting then .ready else w

/-- What the scheduler can pick next. -/
inductive Action where
  /-- Worker `i` takes the mutex and evaluates `again:` once (lines 290-317). -/
  | pop (i : Nat)
  /-- Worker `i` calls `opendir` on the path it popped (lines 217-222). -/
  | opendir (i : Nat)
  /-- Worker `i` runs the loop body on the next entry; `k` is the waiter a
  `pthread_cond_signal` wakes (lines 227-264). -/
  | entry (i k : Nat)
  /-- Worker `i` gets NULL from `readdir`, closes, returns, and folds its subtotal
  (lines 265-273 and 325-340). -/
  | finish (i : Nat)
  /-- Worker `i` returns from `pthread_cond_wait` without having been signalled. -/
  | spurious (i : Nat)
deriving DecidableEq, Repr

/-- Lines 290-317 for worker `i`: one evaluation of `again:` with the mutex held; on
`wait` the worker blocks in `pthread_cond_wait`, which releases the mutex. -/
def stepPop (cfg : Config) (s : State) (i : Nat) : Option State :=
  match s.workers[i]? with
  | some .ready =>
    match again cfg s.global_queue s.global_active with
    | (.path p, q, a) =>
      some { s with global_queue := q, global_active := a, workers := s.workers.set i (.popped p) }
    | (.exit, _, _) => some { s with workers := s.workers.set i .exited }
    | (.wait, _, _) => some { s with workers := s.workers.set i .waiting }
  | _ => none

/-- Lines 217-222 for worker `i`: the call of `opendir` on the popped path. -/
def stepOpendir (fs : FS) (s : State) (i : Nat) : Option State :=
  match s.workers[i]? with
  | some (.popped path) =>
    match fs path with
    | none => some { s with died := some (.opendir path) }
    | some d =>
      some { s with
        workers := s.workers.set i (.listing path d.entries d.readdirFails d.closedirFails 0)
        history := s.history ++ [.opendir path] }
  | _ => none

/-- Lines 227-264 for worker `i`, one entry: `readdir`, `fstatat`, then the push
under the mutex (a directory) or the call of `insert` (a regular file).  An entry is
never both, so the step touches the shared state at one point only and is taken as
atomic. -/
def stepEntry (cfg : Config) (s : State) (i k : Nat) : Option State :=
  match s.workers[i]? with
  | some (.listing path (e :: rest) rf cf total_size) =>
    match loopBody cfg path e with
    | .error f => some { s with died := some f }
    | .ok eff =>
      let stored : Option (List String) :=
        match eff.push with
        | none => some s.global_queue
        | some child => push cfg s.global_queue child
      match stored with
      | none => some { s with died := some .overrun }
      | some global_queue =>
        let signalled : Option (List Worker) :=
          match eff.push with
          | none => some s.workers
          | some _ => cond_signal s.workers k
        match signalled with
        | none => none
        | some ws =>
          match output cfg s.inserted eff.regular with
          | .error f => some { s with global_queue := global_queue, workers := ws, died := some f }
          | .ok table =>
            some { s with
              global_queue := global_queue
              workers := ws.set i (.listing path rest rf cf (off_t (total_size + eff.size)))
              inserted := table
              history := s.history ++ eff.regular.toList.map Event.regular }
  | _ => none

/-- Lines 265-273 and 325-340 for worker `i`: `readdir` returns NULL, `closedir`,
the return of `total_size`, and the fold under the mutex.  Only the fold touches
the shared state. -/
def stepFinish (cfg : Config) (s : State) (i : Nat) : Option State :=
  match s.workers[i]? with
  | some (.listing path [] rf cf total_size) =>
    if rf then some { s with died := some (.readdir path) }
    else if cf then some { s with died := some (.closedir path) }
    else
      let ws := s.workers.set i .ready
      some { s with
        global_size := off_t (s.global_size + total_size)
        global_active := s.global_active - 1
        workers := if cfg.RECURSIVE then cond_broadcast ws else ws }
  | _ => none

/-- A spurious return from `pthread_cond_wait` for worker `i`. -/
def stepSpurious (s : State) (i : Nat) : Option State :=
  match s.workers[i]? with
  | some .waiting => some { s with workers := s.workers.set i .ready }
  | _ => none

/-- One scheduled step; `none` when the action is not enabled.  The model ends a run
where the process stops short: `die` calls `exit`, and what the other threads do
until the process is gone is not modelled.  -/
def step (cfg : Config) (fs : FS) (s : State) (a : Action) : Option State :=
  match s.died with
  | some _ => none
  | none =>
    match a with
    | .pop i => stepPop cfg s i
    | .opendir i => stepOpendir fs s i
    | .entry i k => stepEntry cfg s i k
    | .finish i => stepFinish cfg s i
    | .spurious i => stepSpurious s i

/-- A schedule run from a state. -/
def run (cfg : Config) (fs : FS) : State → List Action → Option State
  | s, [] => some s
  | s, a :: rest =>
    match step cfg fs s a with
    | none => none
    | some t => run cfg fs t rest

/-! ## main -/

/-- The seeding loop of `main` (lines 361-363), from the queue `global_queue` on:
the queue after the loop, or `none` when a store went past the end of the array. -/
def seed (cfg : Config) : List String → List String → Option (List String)
  | global_queue, [] => some global_queue
  | global_queue, root :: rest =>
    match push cfg global_queue root with
    | none => none
    | some stored => seed cfg stored rest

/-- The state `main` hands to the threads: `argv[2..]` are the roots; fewer than
one root is `die("bad arguments")` (lines 355-357), and more than `MAXDIRS` roots
overrun the array in the seeding loop. -/
def main (cfg : Config) (roots : List String) : State :=
  { global_queue := (seed cfg [] roots).getD []
    global_active := 0
    global_size := 0
    workers := List.replicate cfg.NTHREADS .ready
    died :=
      if roots.length < 1 then some .badArguments
      else if (seed cfg [] roots).isSome then none else some .overrun
    inserted := []
    history := [] }

/-- A state some schedule reaches from the start. -/
def Reachable (cfg : Config) (fs : FS) (roots : List String) (s : State) : Prop :=
  ∃ sched, run cfg fs (main cfg roots) sched = some s

/-- Every thread has been joined (lines 384-388) and the process did not die. -/
def Completed (s : State) : Prop :=
  s.died = none ∧ ∀ w ∈ s.workers, w = .exited

instance (s : State) : Decidable (Completed s) := by
  unfold Completed; infer_instance

/-! ## The independent walk -/

/-- The subdirectory test of line 233. -/
def isSubdir (e : Dirent) : Bool :=
  match e.st with
  | some st => S_ISDIR st.st_mode && (e.d_name != "." && e.d_name != "..")
  | none => false

/-- The regular file an entry stands for, if any. -/
def regularOf (path : String) (e : Dirent) : Option Record :=
  match e.st with
  | some st =>
    if S_ISREG st.st_mode then some ⟨childPath path e.d_name, st.st_mtime, st.st_size⟩ else none
  | none => none

/-- The events one entry of the directory `path` stands for in the walk: the
regular file it is, and the walk of the subdirectory it is; an entry whose
`fstatat` fails is noted as unreadable. -/
def entryEvents (walkChild : String → List Event) (recursive : Bool) (path : String)
    (e : Dirent) : List Event :=
  match e.st with
  | none => [Event.unreadable (childPath path e.d_name)]
  | some _ =>
    (regularOf path e).toList.map Event.regular ++
      (if recursive && isSubdir e then walkChild (childPath path e.d_name) else [])

/-- The end of a listing in the walk: a failing `readdir` or `closedir` is noted. -/
def listingEnd (path : String) (readdirFails closedirFails : Bool) : List Event :=
  if readdirFails || closedirFails then [Event.unreadable path] else []

/-- A sequential depth-first walk from `path`, descending at most `fuel` levels and
into subdirectories only when `recursive`: the directories it opens and the regular
files it meets, in visiting order. -/
def walk (fs : FS) (recursive : Bool) : Nat → String → List Event
  | 0, _ => []
  | fuel + 1, path =>
    match fs path with
    | none => [Event.unreadable path]
    | some d =>
      Event.opendir path ::
        (d.entries.flatMap (entryEvents (walk fs recursive fuel) recursive path) ++
          listingEnd path d.readdirFails d.closedirFails)

/-- The tree below `path` is at most `fuel` levels deep (as far as the walk
descends). -/
def depthWithin (fs : FS) (recursive : Bool) : Nat → String → Bool
  | 0, _ => false
  | fuel + 1, path =>
    match fs path with
    | none => true
    | some d =>
      d.entries.all fun e =>
        !(recursive && isSubdir e) || depthWithin fs recursive fuel (childPath path e.d_name)

/-- The record of an event that is a regular file. -/
def Event.record? : Event → Option Record
  | .regular r => some r
  | _ => none

/-- The path of an event that is an opened directory. -/
def Event.opened? : Event → Option String
  | .opendir p => some p
  | _ => none

/-- An event of the kind only the walk can hold. -/
def Event.isUnreadable : Event → Bool
  | .unreadable _ => true
  | _ => false

/-- The regular files among a list of events. -/
def regularFiles (evs : List Event) : List Record := evs.filterMap Event.record?

/-- The directories opened among a list of events. -/
def openedDirs (evs : List Event) : List String := evs.filterMap Event.opened?

/-- The sum of the sizes of a list of records. -/
def totalSize (rs : List Record) : Nat := (rs.map Record.size).sum

/-- The walk of a whole root list, root after root. -/
def walkRoots (fs : FS) (recursive : Bool) (fuel : Nat) (roots : List String) : List Event :=
  roots.flatMap (walk fs recursive fuel)

/-- The sum of the sizes of the regular files directly inside `path`. -/
def directSize (fs : FS) (path : String) : Nat :=
  match fs path with
  | none => 0
  | some d => totalSize (d.entries.filterMap (regularOf path))

/-! ## The scenario of the specification -/

/-- Root `/a` holding `f1` (100 bytes, mtime 1000) and the subdirectory `/a/b`
holding `f2` (50 bytes, mtime 2000). -/
def scenarioFS : FS := fun path =>
  if path = "/a" then
    some ⟨[⟨".", some ⟨.dir, 0, 0⟩⟩, ⟨"..", some ⟨.dir, 0, 0⟩⟩,
           ⟨"f1", some ⟨.reg, 1000, 100⟩⟩, ⟨"b", some ⟨.dir, 0, 0⟩⟩], false, false⟩
  else if path = "/a/b" then
    some ⟨[⟨".", some ⟨.dir, 0, 0⟩⟩, ⟨"..", some ⟨.dir, 0, 0⟩⟩,
           ⟨"f2", some ⟨.reg, 2000, 50⟩⟩], false, false⟩
  else none

/-- Two workers, `OUTPUT` on, in the mode given. -/
def scenarioConfig (recursive : Bool) : Config := ⟨2, 1024, recursive, true⟩

/-- A schedule of the two workers over the scenario, recursive mode, up to the point
where all the work is done: worker 0 takes `/a`, worker 1 finds the queue empty and
waits, is woken by the push of `/a/b` and lists it while worker 0 finishes and
goes to wait in its turn. -/
def scenarioWork : List Action :=
  [.pop 0, .pop 1, .opendir 0, .entry 0 1, .entry 0 1, .entry 0 1, .entry 0 1,
   .pop 1, .opendir 1, .finish 0, .entry 1 0, .entry 1 0, .pop 0, .entry 1 0, .finish 1]

/-- The whole run: the work, then both workers take the EXIT branch. -/
def scenarioSchedule : List Action := scenarioWork ++ [.pop 0, .pop 1]

/-- The state the scenario is in after `scenarioWork`. -/
def scenarioDrained : State :=
  { global_queue := []
    global_active := 0
    global_size := 150
    workers := [.ready, .ready]
    died := none
    inserted := [⟨"/a/f1", 1000, 100⟩, ⟨"/a/b/f2", 2000, 50⟩]
    history := [.opendir "/a", .regular ⟨"/a/f1", 1000, 100⟩, .opendir "/a/b",
                .regular ⟨"/a/b/f2", 2000, 50⟩] }

/-- The state of the scenario after its first two steps: worker 0 holds `/a`, worker 1
sleeps on the condition variable. -/
def scenarioAsleep : State :=
  { global_queue := []
    global_active := 1
    global_size := 0
    workers := [.popped "/a", .waiting]
    died := none
    inserted := []
    history := [] }

/-- Worker `i` takes a directory, opens it, reads `n` entries (no sleeper to wake)
and folds its subtotal. -/
def processAlone (i n : Nat) : List Action :=
  [.pop i, .opendir i] ++ List.replicate n (.entry i i) ++ [.finish i]

/-- A root `/a` holding `f1` (100 bytes) and the empty subdirectory `/a/b`. -/
def nestedFS : FS := fun path =>
  if path = "/a" then
    some ⟨[⟨".", some ⟨.dir, 0, 0⟩⟩, ⟨"..", some ⟨.dir, 0, 0⟩⟩,
           ⟨"f1", some ⟨.reg, 1000, 100⟩⟩, ⟨"b", some ⟨.dir, 0, 0⟩⟩], false, false⟩
  else if path = "/a/b" then
    some ⟨[⟨".", some ⟨.dir, 0, 0⟩⟩, ⟨"..", some ⟨.dir, 0, 0⟩⟩], false, false⟩
  else none

/-- The run over `nestedFS` from the roots `/a` and `/a/b`: worker 0 lists `/a/b`, then
`/a`, then `/a/b` again, and both workers take the EXIT branch. -/
def nestedSchedule : List Action :=
  processAlone 0 2 ++ processAlone 0 4 ++ processAlone 0 2 ++ [.pop 0, .pop 1]

/-- The state the run over `nestedFS` ends in. -/
def nestedFinal : State :=
  { global_queue := []
    global_active := 0
    global_size := 100
    workers := [.exited, .exited]
    died := none
    inserted := [⟨"/a/f1", 1000, 100⟩]
    history := [.opendir "/a/b", .opendir "/a", .regular ⟨"/a/f1", 1000, 100⟩,
                .opendir "/a/b"] }

/-- The scenario in non-recursive mode: worker 0 lists `/a`, then both workers take
the EXIT branch. -/
def flatSchedule : List Action := processAlone 0 4 ++ [.pop 0, .pop 1]

/-- The state the non-recursive scenario ends in. -/
def flatFinal : State :=
  { global_queue := []
    global_active := 0
    global_size := 100
    workers := [.exited, .exited]
    died := none
    inserted := [⟨"/a/f1", 1000, 100⟩]
    history := [.opendir "/a", .regular ⟨"/a/f1", 1000, 100⟩] }

/-- Two workers, `OUTPUT` off as in the source, in the mode given. -/
def plainConfig (recursive : Bool) : Config := ⟨2, 1024, recursive, false⟩

/-- The run over `scenarioFS` from the roots `/a` and `/a/b`, recursive mode: worker 0
lists `/a/b`, then `/a` (pushing `/a/b`), then `/a/b` again, and both workers take the
EXIT branch. -/
def overlapSchedule : List Action :=
  processAlone 0 3 ++ processAlone 0 4 ++ processAlone 0 3 ++ [.pop 0, .pop 1]

/-- The state the run of `overlapSchedule` ends in, with `OUTPUT` off. -/
def overlapFinal : State :=
  { global_queue := []
    global_active := 0
    global_size := 200
    workers := [.exited, .exited]
    died := none
    inserted := []
    history := [.opendir "/a/b", .regular ⟨"/a/b/f2", 2000, 50⟩, .opendir "/a",
                .regular ⟨"/a/f1", 1000, 100⟩, .opendir "/a/b",
                .regular ⟨"/a/b/f2", 2000, 50⟩] }

/-- The run over `scenarioFS` from the root `/a` given twice, non-recursive mode:
worker 0 lists `/a` twice, and both workers take the EXIT branch. -/
def repeatSchedule : List Action :=
  processAlone 0 4 ++ processAlone 0 4 ++ [.pop 0, .pop 1]

/-- The state the run of `repeatSchedule` ends in, with `OUTPUT` off. -/
def repeatFinal : State :=
  { global_queue := []
    global_active := 0
    global_size := 200
    workers := [.exited, .exited]
    died := none
    inserted := []
    history := [.opendir "/a", .regular ⟨"/a/f1", 1000, 100⟩, .opendir "/a",
                .regular ⟨"/a/f1", 1000, 100⟩] }

/-- A queue configured with the small capacity 2. -/
def smallConfig : Config := ⟨1, 2, true, true⟩

/-- A root `/a` holding three subdirectories. -/
def wideFS : FS := fun path =>
  if path = "/a" then
    some ⟨[⟨"b", some ⟨.dir, 0, 0⟩⟩, ⟨"c", some ⟨.dir, 0, 0⟩⟩, ⟨"d", some ⟨.dir, 0, 0⟩⟩],
      false, false⟩
  else some ⟨[], false, false⟩

/-- The state of the run over `wideFS` after the worker has read the first two
entries of `/a`: the queue of capacity 2 is full and the entry `d` is still to be
read. -/
def wideFull : State :=
  { global_queue := ["/a/b", "/a/c"]
    global_active := 1
    global_size := 0
    workers := [.listing "/a" [⟨"d", some ⟨.dir, 0, 0⟩⟩] false false 0]
    died := none
    inserted := []
    history := [.opendir "/a"] }

/-- A root `/a` holding `f1` (100 bytes) and then an entry `x` on which `fstatat`
fails. -/
def brokenFS : FS := fun path =>
  if path = "/a" then
    some ⟨[⟨"f1", some ⟨.reg, 1000, 100⟩⟩, ⟨"x", none⟩], false, false⟩
  else none

/-- The state of the run over `brokenFS` after `f1` has been read and before `x` is. -/
def brokenBefore : State :=
  { global_queue := []
    global_active := 1
    global_size := 0
    workers := [.listing "/a" [⟨"x", none⟩] false false 100, .ready]
    died := none
    inserted := [⟨"/a/f1", 1000, 100⟩]
    history := [.opendir "/a", .regular ⟨"/a/f1", 1000, 100⟩] }

/-- Whether an action is a spurious wake-up. -/
def Action.isSpurious : Action → Bool
  | .spurious _ => true
  | _ => false

/-! ## Quantities the invariants speak about -/

/-- The number of workers holding a directory (popped, subtotal not yet folded). -/
def processingCount (ws : List Worker) : Nat := ws.countP Worker.isProcessing

/-- The number of workers blocked in `pthread_cond_wait`. -/
def waitingCount (ws : List Worker) : Nat := ws.countP Worker.isWaiting

/-- The number of workers that have left their loop. -/
def exitedCount (ws : List Worker) : Nat := ws.countP Worker.isExited

/-- The events still owed by a worker: the walk of the directory it popped, or of
the entries it has not read yet. -/
def remaining (fs : FS) (recursive : Bool) (fuel : Nat) : Worker → List Event
  | .popped path => walk fs recursive fuel path
  | .listing path rest rf cf _ =>
    rest.flatMap (entryEvents (walk fs recursive fuel) recursive path) ++ listingEnd path rf cf
  | _ => []

/-- The subtotal a worker holds in its local `total_size`. -/
def localTotal : Worker → Int
  | .listing _ _ _ _ total_size => total_size
  | _ => 0

/-- The directories a worker holds or may still push are within the depth bound. -/
def heldWithin (fs : FS) (recursive : Bool) (fuel : Nat) : Worker → Prop
  | .popped path => depthWithin fs recursive fuel path = true
  | .listing path rest _ _ _ =>
    ∀ e ∈ rest, (recursive && isSubdir e) = true →
      depthWithin fs recursive fuel (childPath path e.d_name) = true
  | _ => True

/-- The accounting facts that hold in every state of a run over a tree of bounded
depth: every event of the walk of the roots is either in the history, or owed by
the worker holding its directory, or owed by a pending directory. -/
structure Accounting (cfg : Config) (fs : FS) (fuel : Nat) (roots : List String)
    (s : State) : Prop where
  shallow : ∀ p ∈ s.global_queue, depthWithin fs cfg.RECURSIVE fuel p = true
  held : ∀ w ∈ s.workers, heldWithin fs cfg.RECURSIVE fuel w
  events : ∀ x : Event,
    s.history.count x
      + (s.workers.map fun w => (remaining fs cfg.RECURSIVE fuel w).count x).sum
      + (s.global_queue.map fun p => (walk fs cfg.RECURSIVE fuel p).count x).sum
      = (walkRoots fs cfg.RECURSIVE fuel roots).count x
  sizes : (s.global_size + (s.workers.map localTotal).sum
      - (totalSize (regularFiles s.history) : Int)) % 18446744073709551616 = 0
  range : -9223372036854775808 ≤ s.global_size ∧ s.global_size < 9223372036854775808
  rows : s.inserted = if cfg.OUTPUT then regularFiles s.history else []
  readable : ∀ x ∈ s.history, x.isUnreadable = false

/-- The bookkeeping facts that hold in every state of a run. -/
structure Bookkeeping (cfg : Config) (s : State) : Prop where
  threads : s.workers.length = cfg.NTHREADS
  active : s.global_active = (processingCount s.workers : Int)
  asleep : 0 < waitingCount s.workers → 0 < processingCount s.workers
  flat : cfg.RECURSIVE = false → waitingCount s.workers = 0
  gone : 0 < exitedCount s.workers →
    s.global_queue_len = 0 ∧ (cfg.RECURSIVE = true → processingCount s.workers = 0)

/-! ## The pop loop -/

theorem again_cases (cfg : Config) (pending : List String) (active : Int) :
    (∃ p rest, pending = rest ++ [p] ∧
        again cfg pending active = (.path p, rest, active + 1)) ∨
    (pending = [] ∧ (active = 0 ∨ cfg.RECURSIVE = false) ∧
        again cfg pending active = (.exit, pending, active)) ∨
    (pending = [] ∧ active ≠ 0 ∧ cfg.RECURSIVE = true ∧
        again cfg pending active = (.wait, pending, active)) := by
  rcases List.eq_nil_or_concat pending with h | ⟨rest, p, h⟩
  · subst h
    right
    by_cases ha : active = 0
    · left; simp [again, ha]
    · cases hr : cfg.RECURSIVE
      · left; simp [again, hr]
      · right; simp [again, ha, hr]
  · rw [List.concat_eq_append] at h
    subst h
    left
    exact ⟨p, rest, rfl, by simp [again]⟩

/-- C7. One evaluation of the pop loop at label again on (pending, active) does
exactly one of three things: when pending is non-empty it removes exactly one path
(the last stored), increments active by one and returns that path; when pending is
empty and active is 0, or RECURSIVE is off, it returns EXIT and leaves both
unchanged; otherwise (pending empty, active non-zero, RECURSIVE on) it waits and
leaves both unchanged. -/
theorem pop_decision (cfg : Config) (pending : List String) (active : Int) :
    (∃ p rest, pending = rest ++ [p] ∧
        again cfg pending active = (.path p, rest, active + 1)) ∨
    (pending = [] ∧ (active = 0 ∨ cfg.RECURSIVE = false) ∧
        again cfg pending active = (.exit, pending, active)) ∨
    (pending = [] ∧ active ≠ 0 ∧ cfg.RECURSIVE = true ∧
        again cfg pending active = (.wait, pending, active)) :=
  again_cases cfg pending active

/-! ## process_dir_slow on its own -/

theorem off_t_off_t_add (a n : Int) : off_t (off_t a + n) = off_t (a + n) := by
  unfold off_t
  omega

theorem off_t_congr (n : Int) : (off_t n - n) % 18446744073709551616 = 0 := by
  unfold off_t
  omega

theorem off_t_of_range {n : Int} (h0 : -9223372036854775808 ≤ n)
    (h1 : n < 9223372036854775808) : off_t n = n := by
  unfold off_t
  omega

theorem off_t_range (n : Int) :
    -9223372036854775808 ≤ off_t n ∧ off_t n < 9223372036854775808 := by
  unfold off_t
  omega

theorem listLoop_other (cfg : Config) (path : String) (hrec : cfg.RECURSIVE = true)
    (name : String) (mode : FileType) (mtime : Int) (size : Nat) (rest : List Dirent)
    (queue : List String) (table : List Record) (total : Int) (hm : mode ≠ .reg)
    (htot : off_t total = total)
    (hlt : mode = .dir ∧ name ≠ "." ∧ name ≠ ".." → queue.length < cfg.MAXDIRS) :
    listLoop cfg path false false (⟨name, some ⟨mode, mtime, size⟩⟩ :: rest) queue table total =
      listLoop cfg path false false rest
        (queue ++ (if mode = .dir ∧ name ≠ "." ∧ name ≠ ".." then [path ++ "/" ++ name]
          else [])) table total := by
  simp only [listLoop, loopBody, output, push]
  cases mode <;> by_cases h1 : name = "." <;> by_cases h2 : name = ".." <;>
    simp_all [S_ISDIR, S_ISREG, childPath]

theorem listLoop_listing (cfg : Config) (path : String) (hrec : cfg.RECURSIVE = true)
    (ents : List (String × Stat)) :
    ∀ (queue : List String) (table : List Record) (total : Int),
    off_t total = total →
    queue.length + (ents.filter fun x => x.2.st_mode = .dir ∧ x.1 ≠ "." ∧ x.1 ≠ "..").length
      ≤ cfg.MAXDIRS →
    (cfg.OUTPUT = true →
      (table.map Record.path ++
        (ents.filter fun x => x.2.st_mode = .reg).map (fun x => path ++ "/" ++ x.1)).Nodup) →
    listLoop cfg path false false (ents.map fun x => ⟨x.1, some x.2⟩) queue table total =
      ⟨queue ++ (ents.filter fun x => x.2.st_mode = .dir ∧ x.1 ≠ "." ∧ x.1 ≠ "..").map
          (fun x => path ++ "/" ++ x.1),
        if cfg.OUTPUT then
          table ++ (ents.filter fun x => x.2.st_mode = .reg).map
            (fun x => ⟨path ++ "/" ++ x.1, x.2.st_mtime, x.2.st_size⟩)
        else table,
        .returned (off_t (total + (((ents.filter fun x => x.2.st_mode = .reg).map
          (fun x => x.2.st_size)).sum : Nat)))⟩ := by
  induction ents with
  | nil => intro queue table total htot _ _; simp [listLoop, htot]
  | cons x rest ih =>
    intro queue table total htot hroom hsink
    obtain ⟨name, st⟩ := x
    obtain ⟨mode, mtime, size⟩ := st
    have hother : mode ≠ .reg →
        listLoop cfg path false false
          (List.map (fun x => ⟨x.1, some x.2⟩) ((name, ⟨mode, mtime, size⟩) :: rest))
          queue table total =
        listLoop cfg path false false (List.map (fun x => ⟨x.1, some x.2⟩) rest)
          (queue ++ (if mode = .dir ∧ name ≠ "." ∧ name ≠ ".." then [path ++ "/" ++ name]
            else [])) table total := by
      intro hm
      have hlt : mode = .dir ∧ name ≠ "." ∧ name ≠ ".." → queue.length < cfg.MAXDIRS := by
        intro hd
        simp only [List.filter_cons, hd, ne_eq, not_false_eq_true, and_self, decide_True,
          if_true, List.length_cons] at hroom
        omega
      rw [List.map_cons]
      exact listLoop_other cfg path hrec name mode mtime size _ queue table total hm htot hlt
    have hidem : off_t (off_t (total + (size : Int))) = off_t (total + (size : Int)) := by
      have := off_t_range (total + (size : Int))
      exact off_t_of_range this.1 this.2
    have hroom2 : ∀ l : List String, l.length ≤ 1 →
        (l = [] ∨ (mode = .dir ∧ name ≠ "." ∧ name ≠ "..")) →
        (queue ++ l).length +
          (rest.filter fun x => x.2.st_mode = .dir ∧ x.1 ≠ "." ∧ x.1 ≠ "..").length
          ≤ cfg.MAXDIRS := by
      intro l hl hc
      rcases hc with rfl | hd
      · simp only [List.append_nil]
        have := List.length_filter_le
          (fun x : String × Stat => decide (x.2.st_mode = .dir ∧ x.1 ≠ "." ∧ x.1 ≠ ".."))
          rest
        simp only [List.filter_cons] at hroom
        split at hroom
        · simp only [List.length_cons] at hroom
          omega
        · exact hroom
      · rw [List.filter_cons, if_pos (decide_eq_true hd), List.length_cons] at hroom
        simp only [List.length_append]
        omega
    cases hmode : mode with
    | reg =>
      subst hmode
      have hq := hroom2 [] (by simp) (Or.inl rfl)
      rw [List.append_nil] at hq
      cases ho : cfg.OUTPUT with
      | false =>
        simp only [List.map_cons, listLoop, loopBody, output, S_ISREG, S_ISDIR, ho, if_true,
          Bool.false_eq_true, if_false, Bool.false_and, Bool.and_false]
        rw [ih _ _ _ hidem hq (by simp [ho])]
        simp [ho, List.filter_cons]
        rw [off_t_off_t_add, Int.add_assoc]
      | true =>
        have hnd := hsink ho
        simp only [List.filter_cons, decide_True, if_true, List.map_cons] at hnd
        have hfresh : path ++ "/" ++ name ∉ table.map Record.path := by
          have := (List.nodup_middle.mp hnd)
          rw [List.nodup_cons] at this
          intro hin
          exact this.1 (List.mem_append_left _ hin)
        simp only [List.map_cons, listLoop, loopBody, output, S_ISREG, S_ISDIR, ho, if_true,
          insert, childPath, hfresh, if_false, Bool.false_and, Bool.and_false,
          Bool.false_eq_true]
        rw [ih _ _ _ hidem hq (by
          intro _
          simpa [List.map_append, List.append_assoc] using hnd)]
        simp [ho, List.filter_cons]
        rw [off_t_off_t_add, Int.add_assoc]
    | dir =>
      subst hmode
      by_cases h1 : name = "."
      · rw [hother (by decide), ih _ _ _ htot
          (hroom2 _ (by split <;> simp) (by simp [h1]))
          (by simpa [List.filter_cons] using hsink)]
        simp [List.filter_cons, h1]
      · by_cases h2 : name = ".."
        · rw [hother (by decide), ih _ _ _ htot
            (hroom2 _ (by split <;> simp) (by simp [h2]))
            (by simpa [List.filter_cons] using hsink)]
          simp [List.filter_cons, h2]
        · rw [hother (by decide), ih _ _ _ htot
            (hroom2 _ (by split <;> simp) (Or.inr ⟨rfl, h1, h2⟩))
            (by simpa [List.filter_cons] using hsink)]
          simp [List.filter_cons, h1, h2]
    | lnk =>
      subst hmode
      rw [hother (by decide), ih _ _ _ htot (hroom2 _ (by simp) (by simp))
        (by simpa [List.filter_cons] using hsink)]
      simp [List.filter_cons]
    | other =>
      subst hmode
      rw [hother (by decide), ih _ _ _ htot (hroom2 _ (by simp) (by simp))
        (by simpa [List.filter_cons] using hsink)]
      simp [List.filter_cons]

/-- C9, as stated, fails: on a directory /d holding three regular files of 2^62 bytes
each, process_dir_slow returns -2^62, not the sum 3 * 2^62 of their sizes. -/
theorem process_dir_slow_wraps :
    (process_dir_slow sourceConfig
        (fun _ => some ⟨[⟨"f1", some ⟨.reg, 0, 4611686018427387904⟩⟩,
          ⟨"f2", some ⟨.reg, 0, 4611686018427387904⟩⟩,
          ⟨"f3", some ⟨.reg, 0, 4611686018427387904⟩⟩], false, false⟩) "/d" [] []).result
      = .returned (-4611686018427387904) ∧
    ([4611686018427387904, 4611686018427387904, 4611686018427387904] : List Nat).sum
      = 13835058055282163712 := by
  decide

/-- C9, amended. For every directory path and every sequence of entries (name, kind,
size) the OS returns for it, process_dir_slow (RECURSIVE on; the array global_queue
having room for the pushes; the table accepting the rows when OUTPUT is on) pushes
exactly the paths path + "/" + name of the entries whose own kind is directory and
whose name is neither "." nor "..", in listing order, behind the paths pending, and
returns the sum of the sizes of the entries whose own kind is regular file, kept to
a 64-bit off_t: the sum itself when it is below 2^63. Entries of any other kind,
symbolic links included, cause no push and add nothing. -/
theorem process_dir_slow_listing (cfg : Config) (fs : FS) (path : String)
    (queue : List String) (table : List Record) (ents : List (String × Stat))
    (hrec : cfg.RECURSIVE = true)
    (hfs : fs path = some ⟨ents.map fun x => ⟨x.1, some x.2⟩, false, false⟩)
    (hroom : queue.length +
      (ents.filter fun x => x.2.st_mode = .dir ∧ x.1 ≠ "." ∧ x.1 ≠ "..").length ≤ cfg.MAXDIRS)
    (hsink : cfg.OUTPUT = true →
      (table.map Record.path ++
        (ents.filter fun x => x.2.st_mode = .reg).map (fun x => path ++ "/" ++ x.1)).Nodup) :
    (process_dir_slow cfg fs path queue table).global_queue =
        queue ++ (ents.filter fun x => x.2.st_mode = .dir ∧ x.1 ≠ "." ∧ x.1 ≠ "..").map
          (fun x => path ++ "/" ++ x.1) ∧
    (process_dir_slow cfg fs path queue table).result =
        .returned (off_t
          (((ents.filter fun x => x.2.st_mode = .reg).map fun x => x.2.st_size).sum : Nat)) ∧
    ((((ents.filter fun x => x.2.st_mode = .reg).map fun x => x.2.st_size).sum : Nat)
        < 9223372036854775808 →
      (process_dir_slow cfg fs path queue table).result =
        .returned
          (((ents.filter fun x => x.2.st_mode = .reg).map fun x => x.2.st_size).sum : Nat)) := by
  have hloop := listLoop_listing cfg path hrec ents queue table 0 (by decide) hroom hsink
  unfold process_dir_slow
  rw [hfs]
  simp only [hloop, Int.zero_add]
  refine ⟨trivial, trivial, fun hlt => ?_⟩
  rw [off_t_of_range (by omega) (by omega)]

/-- C9, amended, on a directory /d holding ".", "..", a file, a subdirectory and a
symbolic link, with /p pending: one push, behind /p, and the file's size returned. -/
theorem process_dir_slow_listing_witness :
    sourceConfig.RECURSIVE = true ∧
    (process_dir_slow sourceConfig
        (fun _ => some ⟨[⟨".", some ⟨.dir, 0, 0⟩⟩, ⟨"..", some ⟨.dir, 0, 0⟩⟩,
          ⟨"f", some ⟨.reg, 7, 100⟩⟩, ⟨"sub", some ⟨.dir, 0, 0⟩⟩,
          ⟨"ln", some ⟨.lnk, 0, 9⟩⟩], false, false⟩) "/d" ["/p"] []).global_queue =
      ["/p", "/d/sub"] ∧
    (process_dir_slow sourceConfig
        (fun _ => some ⟨[⟨".", some ⟨.dir, 0, 0⟩⟩, ⟨"..", some ⟨.dir, 0, 0⟩⟩,
          ⟨"f", some ⟨.reg, 7, 100⟩⟩, ⟨"sub", some ⟨.dir, 0, 0⟩⟩,
          ⟨"ln", some ⟨.lnk, 0, 9⟩⟩], false, false⟩) "/d" ["/p"] []).result = .returned 100 :=
  ⟨rfl,
    (process_dir_slow_listing sourceConfig _ "/d" ["/p"] []
      [(".", ⟨.dir, 0, 0⟩), ("..", ⟨.dir, 0, 0⟩), ("f", ⟨.reg, 7, 100⟩),
        ("sub", ⟨.dir, 0, 0⟩), ("ln", ⟨.lnk, 0, 9⟩)] rfl rfl (by decide) (by decide)).1.trans
      (by decide),
    ((process_dir_slow_listing sourceConfig _ "/d" ["/p"] []
      [(".", ⟨.dir, 0, 0⟩), ("..", ⟨.dir, 0, 0⟩), ("f", ⟨.reg, 7, 100⟩),
        ("sub", ⟨.dir, 0, 0⟩), ("ln", ⟨.lnk, 0, 9⟩)] rfl rfl (by decide) (by decide)).2.2
          (by decide)).trans (by decide)⟩

/-! ## Steps, case by case -/

theorem countP_set (p : Worker → Bool) {ws : List Worker} {i : Nat} {w : Worker}
    (h : ws[i]? = some w) (v : Worker) :
    (ws.set i v).countP p + (if p w then 1 else 0) = ws.countP p + (if p v then 1 else 0) := by
  induction ws generalizing i with
  | nil => simp at h
  | cons a rest ih =>
    cases i with
    | zero =>
      simp at h
      subst h
      simp only [List.set_cons_zero, List.countP_cons]
      omega
    | succ j =>
      simp at h
      have := ih h
      simp only [List.set_cons_succ, List.countP_cons]
      omega

theorem stepPop_cases {cfg : Config} {s t : State} {i : Nat} (h : stepPop cfg s i = some t) :
    s.workers[i]? = some .ready ∧
    ((∃ p rest, s.global_queue = rest ++ [p] ∧
        t = { s with global_queue := rest, global_active := s.global_active + 1,
                     workers := s.workers.set i (.popped p) }) ∨
     (s.global_queue = [] ∧ (cfg.RECURSIVE = false ∨ s.global_active = 0) ∧
        t = { s with workers := s.workers.set i .exited }) ∨
     (s.global_queue = [] ∧ cfg.RECURSIVE = true ∧ s.global_active ≠ 0 ∧
        t = { s with workers := s.workers.set i .waiting })) := by
  unfold stepPop at h
  split at h
  · rename_i hw
    refine ⟨hw, ?_⟩
    rcases again_cases cfg s.global_queue s.global_active with
      ⟨p, rest, hq, ha⟩ | ⟨hq, hc, ha⟩ | ⟨hq, hc, hr, ha⟩
    · rw [ha] at h
      simp only [Option.some.injEq] at h
      exact Or.inl ⟨p, rest, hq, h.symm⟩
    · rw [ha] at h
      simp only [Option.some.injEq] at h
      exact Or.inr (Or.inl ⟨hq, hc.symm, h.symm⟩)
    · rw [ha] at h
      simp only [Option.some.injEq] at h
      exact Or.inr (Or.inr ⟨hq, hr, hc, h.symm⟩)
  · simp at h

theorem stepOpendir_cases {fs : FS} {s t : State} {i : Nat} (h : stepOpendir fs s i = some t) :
    ∃ path, s.workers[i]? = some (.popped path) ∧
    ((fs path = none ∧ t = { s with died := some (.opendir path) }) ∨
     (∃ d, fs path = some d ∧
        t = { s with
          workers := s.workers.set i (.listing path d.entries d.readdirFails d.closedirFails 0)
          history := s.history ++ [.opendir path] })) := by
  unfold stepOpendir at h
  split at h
  · rename_i path hw
    refine ⟨path, hw, ?_⟩
    split at h
    · rename_i hf
      simp only [Option.some.injEq] at h
      exact Or.inl ⟨hf, h.symm⟩
    · rename_i d hf
      simp only [Option.some.injEq] at h
      exact Or.inr ⟨d, hf, h.symm⟩
  · simp at h

theorem cond_signal_cases {ws vs : List Worker} {k : Nat} (h : cond_signal ws k = some vs) :
    (ws[k]? = some .waiting ∧ vs = ws.set k .ready) ∨ (waitingCount ws = 0 ∧ vs = ws) := by
  unfold cond_signal at h
  split at h
  · rename_i hw
    simp only [Option.some.injEq] at h
    exact Or.inl ⟨hw, h.symm⟩
  · split at h
    · simp at h
    · rename_i hany
      simp only [Option.some.injEq] at h
      refine Or.inr ⟨?_, h.symm⟩
      simp only [waitingCount, List.countP_eq_zero]
      intro w hw hp
      exact hany (List.any_eq_true.mpr ⟨w, hw, hp⟩)

theorem loopBody_exclusive {cfg : Config} {path : String} {e : Dirent} {eff : EntryEffect}
    {r : Record} (hb : loopBody cfg path e = .ok eff) (hr : eff.regular = some r) :
    eff.push = none := by
  unfold loopBody at hb
  split at hb
  · simp at hb
  · rename_i st hst
    simp only [Except.ok.injEq] at hb
    subst hb
    cases hm : st.st_mode <;> simp_all [S_ISDIR, S_ISREG]

theorem output_error {cfg : Config} {table : List Record} {regular : Option Record} {f : Fatal}
    (h : output cfg table regular = .error f) :
    f = .sqlite3_step ∧ cfg.OUTPUT = true ∧
      ∃ r, regular = some r ∧ r.path ∈ table.map Record.path := by
  unfold output at h
  split at h
  · rename_i r
    cases ho : cfg.OUTPUT
    · simp [ho] at h
    · simp only [ho, if_true, insert] at h
      split at h
      · rename_i hm
        simp only [Except.error.injEq] at h
        exact ⟨h.symm, rfl, r, rfl, hm⟩
      · simp at h
  · simp at h

theorem output_ok {cfg : Config} {table table2 : List Record} {regular : Option Record}
    (h : output cfg table regular = .ok table2) :
    table2 = (if cfg.OUTPUT then table ++ regular.toList else table) ∧
    (cfg.OUTPUT = true → ∀ r, regular = some r → r.path ∉ table.map Record.path) := by
  unfold output at h
  split at h
  · rename_i r
    cases ho : cfg.OUTPUT
    · simp only [ho, Bool.false_eq_true, if_false, Except.ok.injEq] at h
      simp [h]
    · simp only [ho, if_true, insert] at h
      split at h
      · simp at h
      · rename_i hm
        simp only [Except.ok.injEq] at h
        refine ⟨by simp [h], fun _ r2 hr2 => ?_⟩
        simp only [Option.some.injEq] at hr2
        rw [← hr2]
        exact hm
  · simp only [Except.ok.injEq] at h
    refine ⟨by cases cfg.OUTPUT <;> simp [h], fun _ r hr => ?_⟩
    simp at hr

theorem push_cases (cfg : Config) (q : List String) (path : String) :
    (q.length < cfg.MAXDIRS ∧ push cfg q path = some (q ++ [path])) ∨
    (¬ q.length < cfg.MAXDIRS ∧ push cfg q path = none) := by
  unfold push
  by_cases h : q.length < cfg.MAXDIRS
  · exact Or.inl ⟨h, by simp [h]⟩
  · exact Or.inr ⟨h, by simp [h]⟩

theorem stepEntry_cases {cfg : Config} {s t : State} {i k : Nat}
    (h : stepEntry cfg s i k = some t) :
    ∃ path e rest rf cf total,
    s.workers[i]? = some (.listing path (e :: rest) rf cf total) ∧
    ((∃ f, (loopBody cfg path e = .error f ∨
          (f = .sqlite3_step ∧ cfg.OUTPUT = true ∧
            ∃ eff r, loopBody cfg path e = .ok eff ∧ eff.regular = some r ∧
              r.path ∈ s.inserted.map Record.path) ∨
          (f = .overrun ∧
            ∃ eff child, loopBody cfg path e = .ok eff ∧ eff.push = some child ∧
              ¬ s.global_queue.length < cfg.MAXDIRS)) ∧
        t = { s with died := some f }) ∨
     (∃ eff, loopBody cfg path e = .ok eff ∧
        ((eff.push = none ∧
          t = { s with
            workers := s.workers.set i (.listing path rest rf cf (off_t (total + eff.size)))
            inserted := if cfg.OUTPUT then s.inserted ++ eff.regular.toList else s.inserted
            history := s.history ++ eff.regular.toList.map Event.regular }) ∨
         (∃ child ws, eff.push = some child ∧ cond_signal s.workers k = some ws ∧
          t = { s with
            global_queue := s.global_queue ++ [child]
            workers := ws.set i (.listing path rest rf cf (off_t (total + eff.size)))
            inserted := if cfg.OUTPUT then s.inserted ++ eff.regular.toList else s.inserted
            history := s.history ++ eff.regular.toList.map Event.regular })))) := by
  unfold stepEntry at h
  split at h
  · rename_i path e rest rf cf total hw
    refine ⟨path, e, rest, rf, cf, total, hw, ?_⟩
    split at h
    · rename_i f hf
      simp only [Option.some.injEq] at h
      exact Or.inl ⟨f, Or.inl hf, h.symm⟩
    · rename_i eff hf
      cases hp : eff.push with
      | none =>
        cases ho : output cfg s.inserted eff.regular with
        | error f =>
          obtain ⟨hf1, hf2, r, hr, hm⟩ := output_error ho
          simp only [hp, ho, Option.some.injEq] at h
          exact Or.inl ⟨f, Or.inr (Or.inl ⟨hf1, hf2, eff, r, hf, hr, hm⟩), h.symm⟩
        | ok table =>
          obtain ⟨htab, _⟩ := output_ok ho
          simp only [hp, ho, Option.some.injEq] at h
          exact Or.inr ⟨eff, hf, Or.inl ⟨hp, by rw [← h, htab]⟩⟩
      | some child =>
        rcases push_cases cfg s.global_queue child with ⟨_, hpush⟩ | ⟨hfull, hpush⟩
        · cases hs : cond_signal s.workers k with
          | none => simp [hp, hpush, hs] at h
          | some ws =>
            cases ho : output cfg s.inserted eff.regular with
            | error f =>
              obtain ⟨_, _, r, hr, _⟩ := output_error ho
              have := loopBody_exclusive hf hr
              rw [hp] at this
              simp at this
            | ok table =>
              obtain ⟨htab, _⟩ := output_ok ho
              simp only [hp, hpush, hs, ho, Option.some.injEq] at h
              exact Or.inr ⟨eff, hf, Or.inr ⟨child, ws, hp, rfl, by rw [← h, htab]⟩⟩
        · simp only [hp, hpush, Option.some.injEq] at h
          exact Or.inl ⟨.overrun, Or.inr (Or.inr ⟨rfl, eff, child, hf, hp, hfull⟩), h.symm⟩
  · simp at h

theorem stepEntry_fresh {cfg : Config} {s t : State} {i k : Nat}
    (h : stepEntry cfg s i k = some t) :
    t.inserted = s.inserted ∨
      ∃ r, r.path ∉ s.inserted.map Record.path ∧ t.inserted = s.inserted ++ [r] := by
  unfold stepEntry at h
  split at h
  · split at h
    · simp only [Option.some.injEq] at h
      exact Or.inl (by rw [← h])
    · rename_i eff hf
      have key : ∀ (q : List String) (ws : List Worker) (w : Worker),
          (match output cfg s.inserted eff.regular with
            | .error f => some { s with global_queue := q, workers := ws, died := some f }
            | .ok table =>
              some { s with
                global_queue := q
                workers := ws.set i w
                inserted := table
                history := s.history ++ eff.regular.toList.map Event.regular }) = some t →
          t.inserted = s.inserted ∨
            ∃ r, r.path ∉ s.inserted.map Record.path ∧ t.inserted = s.inserted ++ [r] := by
        intro q ws w hq
        cases ho : output cfg s.inserted eff.regular with
        | error f =>
          simp only [ho, Option.some.injEq] at hq
          exact Or.inl (by rw [← hq])
        | ok table =>
          obtain ⟨htab, hfresh⟩ := output_ok ho
          simp only [ho, Option.some.injEq] at hq
          have hins : t.inserted = table := by rw [← hq]
          rw [hins, htab]
          cases hout : cfg.OUTPUT
          · exact Or.inl (by simp)
          · cases hr : eff.regular with
            | none => exact Or.inl (by simp)
            | some r => exact Or.inr ⟨r, hfresh hout r hr, by simp⟩
      cases hp : eff.push with
      | none =>
        simp only [hp] at h
        exact key _ _ _ h
      | some child =>
        rcases push_cases cfg s.global_queue child with ⟨_, hpush⟩ | ⟨_, hpush⟩
        · cases hs : cond_signal s.workers k with
          | none => simp [hp, hpush, hs] at h
          | some ws =>
            simp only [hp, hpush, hs] at h
            exact key _ _ _ h
        · simp only [hp, hpush, Option.some.injEq] at h
          exact Or.inl (by rw [← h])
  · simp at h

theorem stepFinish_cases {cfg : Config} {s t : State} {i : Nat}
    (h : stepFinish cfg s i = some t) :
    ∃ path rf cf total, s.workers[i]? = some (.listing path [] rf cf total) ∧
    ((rf = true ∧ t = { s with died := some (.readdir path) }) ∨
     (rf = false ∧ cf = true ∧ t = { s with died := some (.closedir path) }) ∨
     (rf = false ∧ cf = false ∧
        t = { s with
          global_size := off_t (s.global_size + total)
          global_active := s.global_active - 1
          workers := if cfg.RECURSIVE then cond_broadcast (s.workers.set i .ready)
                     else s.workers.set i .ready })) := by
  unfold stepFinish at h
  split at h
  · rename_i path rf cf total hw
    refine ⟨path, rf, cf, total, hw, ?_⟩
    cases rf <;> cases cf <;> simp at h <;> simp [← h]
  · simp at h

theorem stepSpurious_cases {s t : State} {i : Nat} (h : stepSpurious s i = some t) :
    s.workers[i]? = some .waiting ∧ t = { s with workers := s.workers.set i .ready } := by
  unfold stepSpurious at h
  split at h
  · rename_i hw
    simp only [Option.some.injEq] at h
    exact ⟨hw, h.symm⟩
  · simp at h

/-! ## Bookkeeping is an invariant -/

theorem cond_broadcast_processing (ws : List Worker) :
    processingCount (cond_broadcast ws) = processingCount ws := by
  induction ws with
  | nil => rfl
  | cons w rest ih =>
    simp only [processingCount, cond_broadcast, List.map_cons, List.countP_cons] at ih ⊢
    rw [ih]
    cases w <;> simp [Worker.isWaiting, Worker.isProcessing]

theorem cond_broadcast_exited (ws : List Worker) :
    exitedCount (cond_broadcast ws) = exitedCount ws := by
  induction ws with
  | nil => rfl
  | cons w rest ih =>
    simp only [exitedCount, cond_broadcast, List.map_cons, List.countP_cons] at ih ⊢
    rw [ih]
    cases w <;> simp [Worker.isWaiting, Worker.isExited]

theorem cond_broadcast_waiting (ws : List Worker) :
    waitingCount (cond_broadcast ws) = 0 := by
  induction ws with
  | nil => rfl
  | cons w rest ih =>
    simp only [waitingCount, cond_broadcast, List.map_cons, List.countP_cons] at ih ⊢
    rw [ih]
    cases w <;> simp [Worker.isWaiting]

theorem cond_signal_counts {ws vs : List Worker} {k : Nat} (h : cond_signal ws k = some vs) :
    vs.length = ws.length ∧ processingCount vs = processingCount ws ∧
    exitedCount vs = exitedCount ws ∧ waitingCount vs ≤ waitingCount ws := by
  rcases cond_signal_cases h with ⟨hk, rfl⟩ | ⟨_, rfl⟩
  · have h1 := countP_set Worker.isProcessing hk .ready
    have h2 := countP_set Worker.isExited hk .ready
    have h3 := countP_set Worker.isWaiting hk .ready
    simp [Worker.isProcessing, Worker.isExited, Worker.isWaiting] at h1 h2 h3
    simp only [processingCount, exitedCount, waitingCount]
    exact ⟨by simp, h1, h2, by omega⟩
  · simp

theorem cond_signal_keeps {ws vs : List Worker} {k i : Nat} {w : Worker}
    (h : cond_signal ws k = some vs) (hw : ws[i]? = some w) (hn : w.isWaiting = false) :
    vs[i]? = some w := by
  rcases cond_signal_cases h with ⟨hk, rfl⟩ | ⟨_, rfl⟩
  · by_cases hki : k = i
    · subst hki
      rw [hk] at hw
      simp only [Option.some.injEq] at hw
      subst hw
      simp [Worker.isWaiting] at hn
    · rw [List.getElem?_set_ne hki]
      exact hw
  · exact hw

theorem loopBody_push_recursive {cfg : Config} {path : String} {e : Dirent} {eff : EntryEffect}
    {child : String} (hb : loopBody cfg path e = .ok eff) (hp : eff.push = some child) :
    cfg.RECURSIVE = true ∧ isSubdir e = true ∧ child = childPath path e.d_name := by
  unfold loopBody at hb
  split at hb
  · simp at hb
  · rename_i st hst
    simp only [Except.ok.injEq] at hb
    rw [← hb] at hp
    simp only [isSubdir, hst]
    cases hr : cfg.RECURSIVE
    · simp [hr] at hp
    · simp only [hr, Bool.true_and] at hp
      split at hp
      · rename_i hc
        simp only [Option.some.injEq] at hp
        exact ⟨rfl, hc, hp.symm⟩
      · simp at hp

theorem bookkeeping_init (cfg : Config) (roots : List String) :
    Bookkeeping cfg (main cfg roots) := by
  have hc : ∀ (p : Worker → Bool) (n : Nat), p .ready = false →
      (List.replicate n Worker.ready).countP p = 0 := by
    intro p n hp
    induction n with
    | zero => rfl
    | succ m ih => simp [List.replicate_succ, List.countP_cons, ih, hp]
  constructor <;>
    simp [Populate.main, processingCount, waitingCount, exitedCount, hc, Worker.isProcessing,
      Worker.isWaiting, Worker.isExited]

theorem bookkeeping_step {cfg : Config} {fs : FS} {s t : State} {a : Action}
    (inv : Bookkeeping cfg s) (h : step cfg fs s a = some t) : Bookkeeping cfg t := by
  obtain ⟨hlen, hact, hsl, hflat, hgone⟩ := inv
  simp only [processingCount, exitedCount, waitingCount, State.global_queue_len] at *
  unfold Populate.step at h
  split at h
  · simp at h
  · cases a with
    | pop i =>
      obtain ⟨hw, hc⟩ := stepPop_cases h
      rcases hc with ⟨p, rest, hq, rfl⟩ | ⟨hq, hc, rfl⟩ | ⟨hq, hr, hc, rfl⟩
      · have h1 := countP_set Worker.isProcessing hw (.popped p)
        have h2 := countP_set Worker.isExited hw (.popped p)
        have h3 := countP_set Worker.isWaiting hw (.popped p)
        simp [Worker.isProcessing, Worker.isExited, Worker.isWaiting] at h1 h2 h3
        simp only [hq, List.length_append, List.length_singleton] at hgone
        refine ⟨?_, ?_, ?_, ?_, ?_⟩ <;>
          simp only [processingCount, exitedCount, waitingCount, State.global_queue_len,
            List.length_set, h1, h2, h3] <;> first | omega | (intros; omega) | assumption
      · have h1 := countP_set Worker.isProcessing hw .exited
        have h2 := countP_set Worker.isExited hw .exited
        have h3 := countP_set Worker.isWaiting hw .exited
        simp [Worker.isProcessing, Worker.isExited, Worker.isWaiting] at h1 h2 h3
        refine ⟨?_, ?_, ?_, ?_, ?_⟩ <;>
          simp only [processingCount, exitedCount, waitingCount, State.global_queue_len,
            List.length_set, h1, h3, hq, List.length_nil] <;> try assumption
        intro _
        refine ⟨trivial, fun hr => ?_⟩
        rcases hc with hc | hc
        · rw [hr] at hc; simp at hc
        · omega
      · have h1 := countP_set Worker.isProcessing hw .waiting
        have h2 := countP_set Worker.isExited hw .waiting
        have h3 := countP_set Worker.isWaiting hw .waiting
        simp [Worker.isProcessing, Worker.isExited, Worker.isWaiting] at h1 h2 h3
        refine ⟨?_, ?_, ?_, ?_, ?_⟩ <;>
          simp only [processingCount, exitedCount, waitingCount, State.global_queue_len,
            List.length_set, h1, h2, h3] <;> try assumption
        · intro _; omega
        · intro hf; rw [hr] at hf; simp at hf
    | opendir i =>
      obtain ⟨path, hw, hc⟩ := stepOpendir_cases h
      rcases hc with ⟨_, rfl⟩ | ⟨d, _, rfl⟩
      · exact ⟨hlen, hact, hsl, hflat, hgone⟩
      · have h1 := countP_set Worker.isProcessing hw
          (.listing path d.entries d.readdirFails d.closedirFails 0)
        have h2 := countP_set Worker.isExited hw
          (.listing path d.entries d.readdirFails d.closedirFails 0)
        have h3 := countP_set Worker.isWaiting hw
          (.listing path d.entries d.readdirFails d.closedirFails 0)
        simp [Worker.isProcessing, Worker.isExited, Worker.isWaiting] at h1 h2 h3
        refine ⟨?_, ?_, ?_, ?_, ?_⟩ <;>
          simp only [processingCount, exitedCount, waitingCount, State.global_queue_len,
            List.length_set, h1, h2, h3] <;> assumption
    | entry i k =>
      obtain ⟨path, e, rest, rf, cf, total, hw, hc⟩ := stepEntry_cases h
      rcases hc with ⟨f, _, rfl⟩ | ⟨eff, hb, ⟨_, rfl⟩ | ⟨child, ws, hp, hsig, rfl⟩⟩
      · exact ⟨hlen, hact, hsl, hflat, hgone⟩
      · have h1 := countP_set Worker.isProcessing hw
          (.listing path rest rf cf (off_t (total + eff.size)))
        have h2 := countP_set Worker.isExited hw (.listing path rest rf cf (off_t (total + eff.size)))
        have h3 := countP_set Worker.isWaiting hw (.listing path rest rf cf (off_t (total + eff.size)))
        simp [Worker.isProcessing, Worker.isExited, Worker.isWaiting] at h1 h2 h3
        refine ⟨?_, ?_, ?_, ?_, ?_⟩ <;>
          simp only [processingCount, exitedCount, waitingCount, State.global_queue_len,
            List.length_set, h1, h2, h3] <;> assumption
      · have hrec : cfg.RECURSIVE = true := (loopBody_push_recursive hb hp).1
        obtain ⟨c0, c1, c2, c3⟩ := cond_signal_counts hsig
        have hw2 := cond_signal_keeps hsig hw rfl
        have h0 := countP_set Worker.isProcessing hw .ready
        have h1 := countP_set Worker.isProcessing hw2
          (.listing path rest rf cf (off_t (total + eff.size)))
        have h2 := countP_set Worker.isExited hw2 (.listing path rest rf cf (off_t (total + eff.size)))
        have h3 := countP_set Worker.isWaiting hw2 (.listing path rest rf cf (off_t (total + eff.size)))
        simp [Worker.isProcessing, Worker.isExited, Worker.isWaiting] at h0 h1 h2 h3
        simp only [processingCount, exitedCount, waitingCount] at c1 c2 c3
        refine ⟨?_, ?_, ?_, ?_, ?_⟩ <;>
          simp only [processingCount, exitedCount, waitingCount, State.global_queue_len,
            List.length_set, h1, h2, h3, c0, c1, c2] <;> try assumption
        · intro _; omega
        · intro hf; rw [hrec] at hf; simp at hf
        · intro hpos
          have := (hgone hpos).2 hrec
          omega
    | finish i =>
      obtain ⟨path, rf, cf, total, hw, hc⟩ := stepFinish_cases h
      rcases hc with ⟨_, rfl⟩ | ⟨_, _, rfl⟩ | ⟨_, _, rfl⟩
      · exact ⟨hlen, hact, hsl, hflat, hgone⟩
      · exact ⟨hlen, hact, hsl, hflat, hgone⟩
      · have h1 := countP_set Worker.isProcessing hw .ready
        have h2 := countP_set Worker.isExited hw .ready
        have h3 := countP_set Worker.isWaiting hw .ready
        simp [Worker.isProcessing, Worker.isExited, Worker.isWaiting] at h1 h2 h3
        cases hr : cfg.RECURSIVE
        · have hz := hflat hr
          refine ⟨?_, ?_, ?_, ?_, ?_⟩ <;>
            simp only [processingCount, exitedCount, waitingCount, State.global_queue_len,
              List.length_set, h2, h3, Bool.false_eq_true, if_false]
          · exact hlen
          · omega
          · intro hp; omega
          · intro _; exact hz
          · intro hp
            exact ⟨(hgone hp).1, fun hf => by simp [hr] at hf⟩
        · have b1 := cond_broadcast_processing (s.workers.set i .ready)
          have b2 := cond_broadcast_exited (s.workers.set i .ready)
          have b3 := cond_broadcast_waiting (s.workers.set i .ready)
          simp only [processingCount, exitedCount, waitingCount] at b1 b2 b3
          refine ⟨?_, ?_, ?_, ?_, ?_⟩ <;>
            simp only [processingCount, exitedCount, waitingCount, State.global_queue_len,
              if_true, b1, b2, b3, h2]
          · simp [cond_broadcast, hlen]
          · omega
          · intro hp; omega
          · intro hf; simp [hr] at hf
          · intro hp
            have := (hgone hp).2 hr
            omega
    | spurious i =>
      obtain ⟨hw, rfl⟩ := stepSpurious_cases h
      have h1 := countP_set Worker.isProcessing hw .ready
      have h2 := countP_set Worker.isExited hw .ready
      have h3 := countP_set Worker.isWaiting hw .ready
      simp [Worker.isProcessing, Worker.isExited, Worker.isWaiting] at h1 h2 h3
      refine ⟨?_, ?_, ?_, ?_, ?_⟩ <;>
        simp only [processingCount, exitedCount, waitingCount, State.global_queue_len,
          List.length_set, h1, h2] <;> try assumption
      · intro hp; omega
      · intro hf; have := hflat hf; omega

theorem bookkeeping_run {cfg : Config} {fs : FS} {sched : List Action} :
    ∀ {s t : State}, Bookkeeping cfg s → run cfg fs s sched = some t → Bookkeeping cfg t := by
  induction sched with
  | nil =>
    intro s t inv h
    simp only [Populate.run, Option.some.injEq] at h
    exact h ▸ inv
  | cons a rest ih =>
    intro s t inv h
    simp only [Populate.run] at h
    split at h
    · simp at h
    · rename_i u hu
      exact ih (bookkeeping_step inv hu) h

theorem reachable_bookkeeping {cfg : Config} {fs : FS} {roots : List String} {s : State}
    (h : Reachable cfg fs roots s) : Bookkeeping cfg s := by
  obtain ⟨sched, hs⟩ := h
  exact bookkeeping_run (bookkeeping_init cfg roots) hs

/-! ## Quiescence -/

theorem countP_pos_of_getElem? {p : Worker → Bool} {ws : List Worker} {i : Nat} {w : Worker}
    (h : ws[i]? = some w) (hp : p w = true) : 0 < ws.countP p :=
  List.countP_pos_iff.mpr ⟨w, List.getElem?_mem h, hp⟩

theorem no_processing_of_count_zero {ws : List Worker} (h : processingCount ws = 0) :
    ∀ w ∈ ws, w.isProcessing = false := by
  intro w hw
  have := (List.countP_eq_zero.mp h) w hw
  simpa using this

/-- C1. Recursive mode: in every reachable state, whenever worker i, evaluating the
pop loop, takes the EXIT branch (its pop step leaves it exited), the pending queue
is empty, global_active is 0, and no worker is in the middle of processing a
directory. -/
theorem exit_only_when_quiescent (cfg : Config) (fs : FS) (roots : List String)
    (s t : State) (i : Nat) (hrec : cfg.RECURSIVE = true)
    (hreach : Reachable cfg fs roots s)
    (hstep : step cfg fs s (.pop i) = some t)
    (hexit : t.workers[i]? = some .exited) :
    s.global_queue = [] ∧ s.global_active = 0 ∧ ∀ w ∈ s.workers, w.isProcessing = false := by
  have inv := reachable_bookkeeping hreach
  unfold Populate.step at hstep
  split at hstep
  · simp at hstep
  · simp only at hstep
    obtain ⟨hw, hc⟩ := stepPop_cases hstep
    have hlt : i < s.workers.length := by
      rcases Nat.lt_or_ge i s.workers.length with h | h
      · exact h
      · rw [List.getElem?_eq_none h] at hw
        simp at hw
    have hzero : s.global_queue = [] ∧ s.global_active = 0 := by
      rcases hc with ⟨p, rest, _, rfl⟩ | ⟨hq, hc, rfl⟩ | ⟨_, _, _, rfl⟩
      · simp [List.getElem?_set_self, hlt] at hexit
      · rcases hc with hc | hc
        · rw [hrec] at hc; simp at hc
        · exact ⟨hq, hc⟩
      · simp [List.getElem?_set_self, hlt] at hexit
    refine ⟨hzero.1, hzero.2, ?_⟩
    apply no_processing_of_count_zero
    have := inv.active
    rw [hzero.2] at this
    omega

/-- C1 on the scenario: after the work is done worker 0 takes the EXIT branch, and
the queue is empty, global_active is 0 and nobody is processing. -/
theorem exit_only_when_quiescent_witness :
    (scenarioConfig true).RECURSIVE = true ∧
    Reachable (scenarioConfig true) scenarioFS ["/a"] scenarioDrained ∧
    step (scenarioConfig true) scenarioFS scenarioDrained (.pop 0) =
      some { scenarioDrained with workers := [.exited, .ready] } ∧
    (scenarioDrained.global_queue = [] ∧ scenarioDrained.global_active = 0 ∧
      ∀ w ∈ scenarioDrained.workers, w.isProcessing = false) :=
  ⟨rfl, ⟨scenarioWork, by decide⟩, by decide,
    exit_only_when_quiescent (scenarioConfig true) scenarioFS ["/a"] scenarioDrained
      { scenarioDrained with workers := [.exited, .ready] } 0 rfl
      ⟨scenarioWork, by decide⟩ (by decide) (by decide)⟩

theorem quiescent_step {cfg : Config} {fs : FS} {s t : State} {a : Action}
    (inv : Bookkeeping cfg s) (hq : s.global_queue = [] ∧ s.global_active = 0)
    (h : step cfg fs s a = some t) : t.global_queue = [] ∧ t.global_active = 0 := by
  have hz : List.countP Worker.isProcessing s.workers = 0 := by
    have := inv.active
    rw [hq.2] at this
    simp only [processingCount] at this
    omega
  unfold Populate.step at h
  split at h
  · simp at h
  · cases a with
    | pop i =>
      obtain ⟨_, hc⟩ := stepPop_cases h
      rcases hc with ⟨p, rest, hp, rfl⟩ | ⟨_, _, rfl⟩ | ⟨_, _, hc, rfl⟩
      · rw [hq.1] at hp
        simp at hp
      · exact hq
      · exact absurd hq.2 hc
    | opendir i =>
      obtain ⟨path, hw, _⟩ := stepOpendir_cases h
      have := countP_pos_of_getElem? (p := Worker.isProcessing) hw rfl
      omega
    | entry i k =>
      obtain ⟨path, e, rest, rf, cf, total, hw, _⟩ := stepEntry_cases h
      have := countP_pos_of_getElem? (p := Worker.isProcessing) hw rfl
      omega
    | finish i =>
      obtain ⟨path, rf, cf, total, hw, _⟩ := stepFinish_cases h
      have := countP_pos_of_getElem? (p := Worker.isProcessing) hw rfl
      omega
    | spurious i =>
      obtain ⟨_, rfl⟩ := stepSpurious_cases h
      exact hq

theorem quiescent_run {cfg : Config} {fs : FS} {sched : List Action} :
    ∀ {s t : State}, Bookkeeping cfg s → s.global_queue = [] ∧ s.global_active = 0 →
      run cfg fs s sched = some t → t.global_queue = [] ∧ t.global_active = 0 := by
  induction sched with
  | nil =>
    intro s t _ hq h
    simp only [Populate.run, Option.some.injEq] at h
    exact h ▸ hq
  | cons a rest ih =>
    intro s t inv hq h
    simp only [Populate.run] at h
    split at h
    · simp at h
    · rename_i u hu
      exact ih (bookkeeping_step inv hu) (quiescent_step inv hq hu) h

/-- C5. Monotonic quiescence: if a reachable state has an empty pending queue and
global_active = 0, then every state a schedule reaches from it also has an empty
pending queue and global_active = 0 (in recursive mode, and in fact in either
mode). -/
theorem quiescence_is_stable (cfg : Config) (fs : FS) (roots : List String)
    (s t : State) (sched : List Action)
    (hreach : Reachable cfg fs roots s)
    (hquiet : s.global_queue = [] ∧ s.global_active = 0)
    (hrun : run cfg fs s sched = some t) :
    t.global_queue = [] ∧ t.global_active = 0 :=
  quiescent_run (reachable_bookkeeping hreach) hquiet hrun

/-- C5 on the scenario: from the drained state, the two EXIT steps leave the queue
empty and global_active at 0. -/
theorem quiescence_is_stable_witness :
    Reachable (scenarioConfig true) scenarioFS ["/a"] scenarioDrained ∧
    (scenarioDrained.global_queue = [] ∧ scenarioDrained.global_active = 0) ∧
    run (scenarioConfig true) scenarioFS scenarioDrained [.pop 0, .pop 1] =
      some { scenarioDrained with workers := [.exited, .exited] } ∧
    (({ scenarioDrained with workers := [.exited, .exited] } : State).global_queue = [] ∧
      ({ scenarioDrained with workers := [.exited, .exited] } : State).global_active = 0) :=
  ⟨⟨scenarioWork, by decide⟩, ⟨rfl, rfl⟩, by decide,
    quiescence_is_stable (scenarioConfig true) scenarioFS ["/a"] scenarioDrained
      { scenarioDrained with workers := [.exited, .exited] } [.pop 0, .pop 1]
      ⟨scenarioWork, by decide⟩ ⟨rfl, rfl⟩ (by decide)⟩

/-! ## No lost wake-up -/

theorem cond_signal_enabled (ws : List Worker) : ∃ k, cond_signal ws k ≠ none := by
  by_cases h : ∃ w ∈ ws, Worker.isWaiting w = true
  · obtain ⟨w, hw, hp⟩ := h
    obtain ⟨k, hk⟩ := List.getElem?_of_mem hw
    refine ⟨k, ?_⟩
    cases w <;> simp [Worker.isWaiting] at hp
    simp [cond_signal, hk]
  · refine ⟨0, ?_⟩
    have hany : ws.any Worker.isWaiting = false := by
      rw [Bool.eq_false_iff]
      intro hc
      exact h (List.any_eq_true.mp hc)
    unfold cond_signal
    split
    · simp
    · simp [hany]

theorem worker_step_enabled {cfg : Config} {fs : FS} {s : State} {i : Nat} {w : Worker}
    (hlive : s.died = none) (hw : s.workers[i]? = some w)
    (hn : w.isWaiting = false) (he : w.isExited = false) :
    ∃ a, a.isSpurious = false ∧ step cfg fs s a ≠ none := by
  cases w with
  | ready =>
    refine ⟨.pop i, rfl, ?_⟩
    simp only [Populate.step, hlive, stepPop, hw]
    rcases again_cases cfg s.global_queue s.global_active with
      ⟨p, rest, _, ha⟩ | ⟨_, _, ha⟩ | ⟨_, _, _, ha⟩ <;> simp [ha]
  | waiting => simp [Worker.isWaiting] at hn
  | popped path =>
    refine ⟨.opendir i, rfl, ?_⟩
    simp only [Populate.step, hlive, stepOpendir, hw]
    cases fs path <;> simp
  | listing path rest rf cf total =>
    cases rest with
    | nil =>
      refine ⟨.finish i, rfl, ?_⟩
      simp only [Populate.step, hlive, stepFinish, hw]
      cases rf <;> cases cf <;> simp
    | cons e rest =>
      obtain ⟨k, hk⟩ := cond_signal_enabled s.workers
      refine ⟨.entry i k, rfl, ?_⟩
      simp only [Populate.step, hlive, stepEntry, hw]
      cases hb : loopBody cfg path e with
      | error f => simp
      | ok eff =>
        cases hp : eff.push with
        | none => cases ho : output cfg s.inserted eff.regular <;> simp [hp, ho]
        | some child =>
          rcases push_cases cfg s.global_queue child with ⟨_, hpush⟩ | ⟨_, hpush⟩
          · cases hs : cond_signal s.workers k with
            | none => exact absurd hs hk
            | some ws =>
              cases ho : output cfg s.inserted eff.regular <;> simp [hp, hpush, hs, ho]
          · simp [hp, hpush]
  | exited => simp [Worker.isExited] at he

/-- C10. No lost wake-up, recursive mode, with the sleeping workers explicit (signal
on push wakes one, broadcast on finish wakes all, spurious returns allowed): in every
reachable state, if some worker is asleep on the condition variable then
global_active > 0; so no reachable state has a sleeper while every worker that has
not exited is asleep; and in every reachable state of the running process with a
non-exited worker, some step other than a spurious wake-up is enabled. -/
theorem no_lost_wakeup (cfg : Config) (fs : FS) (roots : List String) (s : State)
    (hrec : cfg.RECURSIVE = true) (hreach : Reachable cfg fs roots s) :
    (0 < waitingCount s.workers → 0 < s.global_active) ∧
    ¬ (0 < waitingCount s.workers ∧
        ∀ w ∈ s.workers, w.isExited = false → w.isWaiting = true) ∧
    (s.died = none → (∃ w ∈ s.workers, w.isExited = false) →
        ∃ a, a.isSpurious = false ∧ step cfg fs s a ≠ none) := by
  have inv := reachable_bookkeeping hreach
  have _ := hrec
  have hproc : 0 < waitingCount s.workers →
      ∃ (j : Nat) (w : Worker), s.workers[j]? = some w ∧ w.isProcessing = true := by
    intro hpos
    have hp := inv.asleep hpos
    obtain ⟨w, hw, hpw⟩ := List.countP_pos_iff.mp hp
    obtain ⟨j, hj⟩ := List.getElem?_of_mem hw
    exact ⟨j, w, hj, hpw⟩
  refine ⟨?_, ?_, ?_⟩
  · intro hpos
    have hp := inv.asleep hpos
    rw [inv.active]
    omega
  · rintro ⟨hpos, hall⟩
    obtain ⟨j, w, hj, hpw⟩ := hproc hpos
    have := hall w (List.getElem?_mem hj) (by cases w <;> simp_all [Worker.isProcessing, Worker.isExited])
    cases w <;> simp_all [Worker.isProcessing, Worker.isWaiting]
  · rintro hlive ⟨w, hw, he⟩
    obtain ⟨i, hi⟩ := List.getElem?_of_mem hw
    by_cases hwait : w.isWaiting = true
    · have hpos : 0 < waitingCount s.workers := countP_pos_of_getElem? hi hwait
      obtain ⟨j, v, hj, hpv⟩ := hproc hpos
      exact worker_step_enabled hlive hj
        (by cases v <;> simp_all [Worker.isProcessing, Worker.isWaiting])
        (by cases v <;> simp_all [Worker.isProcessing, Worker.isExited])
    · exact worker_step_enabled hlive hi (by simpa using hwait) he

/-- C10 on the scenario: worker 1 sleeps while worker 0 holds /a; global_active is 1
and worker 0 can step. -/
theorem no_lost_wakeup_witness :
    (scenarioConfig true).RECURSIVE = true ∧
    Reachable (scenarioConfig true) scenarioFS ["/a"] scenarioAsleep ∧
    waitingCount scenarioAsleep.workers = 1 ∧
    ((0 < waitingCount scenarioAsleep.workers → 0 < scenarioAsleep.global_active) ∧
    ¬ (0 < waitingCount scenarioAsleep.workers ∧
        ∀ w ∈ scenarioAsleep.workers, w.isExited = false → w.isWaiting = true) ∧
    (scenarioAsleep.died = none → (∃ w ∈ scenarioAsleep.workers, w.isExited = false) →
        ∃ a, a.isSpurious = false ∧
          step (scenarioConfig true) scenarioFS scenarioAsleep a ≠ none)) :=
  ⟨rfl, ⟨[.pop 0, .pop 1], by decide⟩, by decide,
    no_lost_wakeup (scenarioConfig true) scenarioFS ["/a"] scenarioAsleep rfl
      ⟨[.pop 0, .pop 1], by decide⟩⟩

/-! ## The walk and its depth bound -/

theorem depthWithin_succ (fs : FS) (r : Bool) :
    ∀ (n : Nat) (p : String), depthWithin fs r n p = true → depthWithin fs r (n + 1) p = true := by
  intro n
  induction n with
  | zero => intro p h; simp [depthWithin] at h
  | succ m ih =>
    intro p h
    unfold depthWithin at h ⊢
    cases hfs : fs p with
    | none => rfl
    | some d =>
      simp only [hfs, List.all_eq_true, Bool.or_eq_true] at h ⊢
      intro e he
      rcases h e he with h1 | h1
      · exact Or.inl h1
      · exact Or.inr (ih _ h1)

theorem entryEvents_congr {g h : String → List Event} {r : Bool} {p : String} {e : Dirent}
    (hgh : (r && isSubdir e) = true → g (childPath p e.d_name) = h (childPath p e.d_name)) :
    entryEvents g r p e = entryEvents h r p e := by
  unfold entryEvents
  cases e.st with
  | none => rfl
  | some st =>
    simp only
    congr 1
    cases hc : (r && isSubdir e)
    · simp
    · simp only [if_true]
      exact hgh hc

theorem walk_succ (fs : FS) (r : Bool) :
    ∀ (n : Nat) (p : String), depthWithin fs r n p = true →
      walk fs r (n + 1) p = walk fs r n p := by
  intro n
  induction n with
  | zero => intro p h; simp [depthWithin] at h
  | succ m ih =>
    intro p h
    unfold depthWithin at h
    rw [walk, walk]
    cases hfs : fs p with
    | none => rfl
    | some d =>
      simp only [hfs, List.all_eq_true, Bool.or_eq_true] at h ⊢
      congr 2
      apply List.flatMap_congr
      intro e he
      apply entryEvents_congr
      intro hc
      rcases h e he with h1 | h1
      · simp [hc] at h1
      · exact ih _ h1

theorem walk_unfold {fs : FS} {r : Bool} {fuel : Nat} {p : String} {d : DirStream}
    (hd : depthWithin fs r fuel p = true) (hfs : fs p = some d) :
    walk fs r fuel p =
        [Event.opendir p] ++ (d.entries.flatMap (entryEvents (walk fs r fuel) r p) ++
          listingEnd p d.readdirFails d.closedirFails) ∧
    ∀ e ∈ d.entries, (r && isSubdir e) = true →
        depthWithin fs r fuel (childPath p e.d_name) = true := by
  cases fuel with
  | zero => simp [depthWithin] at hd
  | succ n =>
    unfold depthWithin at hd
    simp only [hfs, List.all_eq_true, Bool.or_eq_true] at hd
    have hsub : ∀ e ∈ d.entries, (r && isSubdir e) = true →
        depthWithin fs r n (childPath p e.d_name) = true := by
      intro e he hc
      rcases hd e he with h1 | h1
      · simp [hc] at h1
      · exact h1
    constructor
    · rw [walk]
      simp only [hfs, List.singleton_append]
      congr 2
      apply List.flatMap_congr
      intro e he
      apply entryEvents_congr
      intro hc
      exact (walk_succ fs r n _ (hsub e he hc)).symm
    · intro e he hc
      exact depthWithin_succ fs r n _ (hsub e he hc)

theorem loopBody_ok {cfg : Config} {path : String} {e : Dirent} {eff : EntryEffect}
    (hb : loopBody cfg path e = .ok eff) :
    eff.regular = regularOf path e ∧ eff.size = totalSize eff.regular.toList ∧
    eff.push = (if (cfg.RECURSIVE && isSubdir e) then some (childPath path e.d_name) else none) ∧
    ∃ st, e.st = some st := by
  unfold loopBody at hb
  split at hb
  · simp at hb
  · rename_i st hst
    simp only [Except.ok.injEq] at hb
    subst hb
    simp only [regularOf, isSubdir, hst]
    refine ⟨trivial, ?_, trivial, st, rfl⟩
    cases S_ISREG st.st_mode <;> simp [totalSize]

theorem regularFiles_append (a b : List Event) :
    regularFiles (a ++ b) = regularFiles a ++ regularFiles b := by
  simp [regularFiles]

theorem regularFiles_regular (rs : List Record) :
    regularFiles (rs.map Event.regular) = rs := by
  induction rs with
  | nil => rfl
  | cons r rest ih =>
    simp only [regularFiles, List.map_cons, List.filterMap_cons, Event.record?] at ih ⊢
    rw [ih]

theorem totalSize_append (a b : List Record) :
    totalSize (a ++ b) = totalSize a + totalSize b := by
  simp [totalSize]

theorem sum_map_set (f : Worker → Nat) {ws : List Worker} {i : Nat} {w : Worker}
    (h : ws[i]? = some w) (v : Worker) :
    ((ws.set i v).map f).sum + f w = (ws.map f).sum + f v := by
  induction ws generalizing i with
  | nil => simp at h
  | cons a rest ih =>
    cases i with
    | zero =>
      simp at h
      subst h
      simp only [List.set_cons_zero, List.map_cons, List.sum_cons]
      omega
    | succ j =>
      simp at h
      have := ih h
      simp only [List.set_cons_succ, List.map_cons, List.sum_cons]
      omega

theorem sum_map_broadcast (f : Worker → Nat) (hf : f .waiting = f .ready) (ws : List Worker) :
    ((cond_broadcast ws).map f).sum = (ws.map f).sum := by
  induction ws with
  | nil => rfl
  | cons w rest ih =>
    simp only [cond_broadcast, List.map_cons, List.sum_cons] at ih ⊢
    rw [ih]
    cases w <;> simp [Worker.isWaiting, hf]

theorem sum_map_signal (f : Worker → Nat) (hf : f .waiting = f .ready) {ws vs : List Worker}
    {k : Nat} (h : cond_signal ws k = some vs) : (vs.map f).sum = (ws.map f).sum := by
  rcases cond_signal_cases h with ⟨hk, rfl⟩ | ⟨_, rfl⟩
  · have := sum_map_set f hk .ready
    omega
  · rfl

theorem mem_signal {ws vs : List Worker} {k : Nat} (h : cond_signal ws k = some vs)
    {w : Worker} (hw : w ∈ vs) : w ∈ ws ∨ w = .ready := by
  rcases cond_signal_cases h with ⟨_, rfl⟩ | ⟨_, rfl⟩
  · exact List.mem_or_eq_of_mem_set hw
  · exact Or.inl hw

theorem mem_broadcast {ws : List Worker} {w : Worker} (hw : w ∈ cond_broadcast ws) :
    w ∈ ws ∨ w = .ready := by
  simp only [cond_broadcast, List.mem_map] at hw
  obtain ⟨v, hv, rfl⟩ := hw
  split
  · exact Or.inr rfl
  · exact Or.inl hv

theorem seed_some (cfg : Config) :
    ∀ (roots q stored : List String), seed cfg q roots = some stored → stored = q ++ roots := by
  intro roots
  induction roots with
  | nil =>
    intro q stored h
    simp only [seed, Option.some.injEq] at h
    simp [h]
  | cons r rest ih =>
    intro q stored h
    simp only [seed] at h
    rcases push_cases cfg q r with ⟨_, hp⟩ | ⟨_, hp⟩
    · simp only [hp] at h
      rw [ih _ _ h]
      simp
    · simp [hp] at h

theorem main_live {cfg : Config} {roots : List String} (h : (main cfg roots).died = none) :
    (main cfg roots).global_queue = roots := by
  simp only [Populate.main] at h ⊢
  cases hs : seed cfg [] roots with
  | none =>
    simp only [hs, Option.isSome_none, Bool.false_eq_true, if_false] at h
    split at h <;> simp at h
  | some stored =>
    have := seed_some cfg roots [] stored hs
    simp [this]

theorem main_queue_le (cfg : Config) (roots : List String) :
    (main cfg roots).global_queue.length ≤ roots.length := by
  simp only [Populate.main]
  cases hs : seed cfg [] roots with
  | none => simp
  | some stored =>
    have := seed_some cfg roots [] stored hs
    simp [this]

theorem run_dead {cfg : Config} {fs : FS} {s t : State} {f : Fatal} {sched : List Action}
    (hd : s.died = some f) (h : run cfg fs s sched = some t) : t = s := by
  cases sched with
  | nil =>
    simp only [Populate.run, Option.some.injEq] at h
    exact h.symm
  | cons a rest => simp [Populate.run, Populate.step, hd] at h

theorem sum_map_set_int (f : Worker → Int) {ws : List Worker} {i : Nat} {w : Worker}
    (h : ws[i]? = some w) (v : Worker) :
    ((ws.set i v).map f).sum + f w = (ws.map f).sum + f v := by
  induction ws generalizing i with
  | nil => simp at h
  | cons a rest ih =>
    cases i with
    | zero =>
      simp at h
      subst h
      simp only [List.set_cons_zero, List.map_cons, List.sum_cons]
      omega
    | succ j =>
      simp at h
      have := ih h
      simp only [List.set_cons_succ, List.map_cons, List.sum_cons]
      omega

theorem sum_map_broadcast_int (f : Worker → Int) (hf : f .waiting = f .ready)
    (ws : List Worker) : ((cond_broadcast ws).map f).sum = (ws.map f).sum := by
  induction ws with
  | nil => rfl
  | cons w rest ih =>
    simp only [cond_broadcast, List.map_cons, List.sum_cons] at ih ⊢
    rw [ih]
    cases w <;> simp [Worker.isWaiting, hf]

theorem sum_map_signal_int (f : Worker → Int) (hf : f .waiting = f .ready)
    {ws vs : List Worker} {k : Nat} (h : cond_signal ws k = some vs) :
    (vs.map f).sum = (ws.map f).sum := by
  rcases cond_signal_cases h with ⟨hk, rfl⟩ | ⟨_, rfl⟩
  · have := sum_map_set_int f hk .ready
    omega
  · rfl

theorem sum_map_zero_int (f : Worker → Int) (ws : List Worker) (h : ∀ w ∈ ws, f w = 0) :
    (ws.map f).sum = 0 := by
  induction ws with
  | nil => rfl
  | cons a rest ih =>
    simp only [List.map_cons, List.sum_cons]
    rw [h a (List.mem_cons_self _ _), ih (fun w hw => h w (List.mem_cons_of_mem _ hw))]
    rfl

theorem count_flatMap_sum {α : Type} (x : Event) (f : α → List Event) (l : List α) :
    (l.flatMap f).count x = (l.map fun a => (f a).count x).sum := by
  induction l with
  | nil => rfl
  | cons a rest ih => simp [List.flatMap_cons, ih]

/-! ## Accounting is an invariant -/

theorem sum_replicate_ready (f : Worker → Nat) (hf : f .ready = 0) (n : Nat) :
    ((List.replicate n Worker.ready).map f).sum = 0 := by
  induction n with
  | zero => rfl
  | succ m ih => simp [List.replicate_succ, hf, ih]

theorem accounting_init (cfg : Config) (fs : FS) (fuel : Nat) (roots : List String)
    (hfin : ∀ r ∈ roots, depthWithin fs cfg.RECURSIVE fuel r = true)
    (hlive : (main cfg roots).died = none) :
    Accounting cfg fs fuel roots (main cfg roots) := by
  have hq := main_live hlive
  refine ⟨?_, ?_, ?_, ?_, ?_, ?_, ?_⟩
  · rw [hq]; exact hfin
  · intro w hw
    simp only [Populate.main] at hw
    rw [List.eq_of_mem_replicate hw]
    trivial
  · intro x
    rw [hq]
    simp only [Populate.main, List.count_nil, walkRoots, count_flatMap_sum]
    rw [sum_replicate_ready _ (by simp [remaining])]
    omega
  · simp only [Populate.main]
    rw [sum_map_zero_int localTotal _ (fun w hw => by rw [List.eq_of_mem_replicate hw]; rfl)]
    simp [regularFiles, totalSize]
  · simp [Populate.main]
  · simp [Populate.main, regularFiles]
  · simp [Populate.main]

theorem accounting_step {cfg : Config} {fs : FS} {fuel : Nat} {roots : List String}
    {s t : State} {a : Action}
    (inv : Accounting cfg fs fuel roots s) (h : step cfg fs s a = some t) :
    Accounting cfg fs fuel roots t := by
  obtain ⟨hsh, hheld, hev, hsz, hrg, hrows, hrd⟩ := inv
  unfold Populate.step at h
  split at h
  · simp at h
  · cases a with
    | pop i =>
      obtain ⟨hw, hc⟩ := stepPop_cases h
      rcases hc with ⟨p, rest, hq, rfl⟩ | ⟨hq, hc, rfl⟩ | ⟨hq, hr, hc, rfl⟩
      · refine ⟨?_, ?_, ?_, ?_, hrg, hrows, hrd⟩
        · intro q hqm
          exact hsh q (by rw [hq]; exact List.mem_append_left _ hqm)
        · intro w hwm
          rcases List.mem_or_eq_of_mem_set hwm with hm | rfl
          · exact hheld w hm
          · exact hsh p (by rw [hq]; simp)
        · intro x
          have h1 := sum_map_set (fun w => (remaining fs cfg.RECURSIVE fuel w).count x) hw
            (.popped p)
          have h2 := hev x
          simp only [remaining, List.count_nil, hq, List.map_append, List.sum_append,
            List.map_cons, List.sum_cons, List.map_nil, List.sum_nil] at h1 h2 ⊢
          omega
        · have h1 := sum_map_set_int localTotal hw (.popped p)
          simp only [localTotal] at h1
          simp only
          omega
      · refine ⟨hsh, ?_, ?_, ?_, hrg, hrows, hrd⟩
        · intro w hwm
          rcases List.mem_or_eq_of_mem_set hwm with hm | rfl
          · exact hheld w hm
          · trivial
        · intro x
          have h1 := sum_map_set (fun w => (remaining fs cfg.RECURSIVE fuel w).count x) hw
            .exited
          have h2 := hev x
          simp only [remaining, List.count_nil] at h1 h2 ⊢
          omega
        · have h1 := sum_map_set_int localTotal hw .exited
          simp only [localTotal] at h1
          simp only
          omega
      · refine ⟨hsh, ?_, ?_, ?_, hrg, hrows, hrd⟩
        · intro w hwm
          rcases List.mem_or_eq_of_mem_set hwm with hm | rfl
          · exact hheld w hm
          · trivial
        · intro x
          have h1 := sum_map_set (fun w => (remaining fs cfg.RECURSIVE fuel w).count x) hw
            .waiting
          have h2 := hev x
          simp only [remaining, List.count_nil] at h1 h2 ⊢
          omega
        · have h1 := sum_map_set_int localTotal hw .waiting
          simp only [localTotal] at h1
          simp only
          omega
    | opendir i =>
      obtain ⟨path, hw, hc⟩ := stepOpendir_cases h
      rcases hc with ⟨_, rfl⟩ | ⟨d, hfs, rfl⟩
      · exact ⟨hsh, hheld, hev, hsz, hrg, hrows, hrd⟩
      · have hdepth : depthWithin fs cfg.RECURSIVE fuel path = true :=
          hheld _ (List.getElem?_mem hw)
        obtain ⟨hwalk, hsub⟩ := walk_unfold hdepth hfs
        refine ⟨hsh, ?_, ?_, ?_, hrg, ?_, ?_⟩
        · intro w hwm
          rcases List.mem_or_eq_of_mem_set hwm with hm | rfl
          · exact hheld w hm
          · exact hsub
        · intro x
          have h1 := sum_map_set (fun w => (remaining fs cfg.RECURSIVE fuel w).count x) hw
            (.listing path d.entries d.readdirFails d.closedirFails 0)
          have h2 := hev x
          simp only [remaining, hwalk, List.count_append] at h1 h2 ⊢
          omega
        · have h1 := sum_map_set_int localTotal hw
            (.listing path d.entries d.readdirFails d.closedirFails 0)
          simp only [localTotal] at h1
          simp only [regularFiles_append]
          simp only [regularFiles, List.filterMap_cons, List.filterMap_nil, Event.record?,
            List.append_nil] at hsz ⊢
          omega
        · simp only [regularFiles_append]
          simpa [regularFiles, Event.record?] using hrows
        · intro x hx
          simp only [List.mem_append, List.mem_singleton] at hx
          rcases hx with hx | rfl
          · exact hrd x hx
          · rfl
    | entry i k =>
      obtain ⟨path, e, rest, rf, cf, total, hw, hc⟩ := stepEntry_cases h
      have hheldw := hheld _ (List.getElem?_mem hw)
      simp only [heldWithin] at hheldw
      rcases hc with ⟨f, _, rfl⟩ | ⟨eff, hb, ⟨hp, rfl⟩ | ⟨child, ws, hp, hsig, rfl⟩⟩
      · exact ⟨hsh, hheld, hev, hsz, hrg, hrows, hrd⟩
      · obtain ⟨hreg, hsize, hpush, st, hst⟩ := loopBody_ok hb
        have hnosub : (cfg.RECURSIVE && isSubdir e) = false := by
          cases hc : (cfg.RECURSIVE && isSubdir e)
          · rfl
          · rw [hp, hc] at hpush; simp at hpush
        refine ⟨hsh, ?_, ?_, ?_, hrg, ?_, ?_⟩
        · intro w hwm
          rcases List.mem_or_eq_of_mem_set hwm with hm | rfl
          · exact hheld w hm
          · intro e1 he1 hs1
            exact hheldw e1 (List.mem_cons_of_mem _ he1) hs1
        · intro x
          have h1 := sum_map_set (fun w => (remaining fs cfg.RECURSIVE fuel w).count x) hw
            (.listing path rest rf cf (off_t (total + eff.size)))
          have h2 := hev x
          simp only [remaining, List.flatMap_cons, entryEvents, hst, hnosub, ← hreg,
            List.count_append, List.count_nil, Bool.false_eq_true, if_false] at h1 h2 ⊢
          omega
        · have h1 := sum_map_set_int localTotal hw (.listing path rest rf cf (off_t (total + eff.size)))
          simp only [localTotal] at h1
          have hwrap := off_t_congr (total + eff.size)
          simp only [regularFiles_append, regularFiles_regular, totalSize_append, Nat.cast_add]
          omega
        · simp only [regularFiles_append, regularFiles_regular, hrows]
          cases cfg.OUTPUT <;> simp
        · intro x hx
          simp only [List.mem_append, List.mem_map] at hx
          rcases hx with hx | ⟨r, _, rfl⟩
          · exact hrd x hx
          · rfl
      · obtain ⟨hreg, hsize, hpush, st, hst⟩ := loopBody_ok hb
        have hsub : (cfg.RECURSIVE && isSubdir e) = true := by
          cases hc : (cfg.RECURSIVE && isSubdir e)
          · rw [hp, hc] at hpush; simp at hpush
          · rfl
        have hchild : child = childPath path e.d_name := by
          rw [hp, hsub] at hpush
          simpa using hpush
        have hw2 := cond_signal_keeps hsig hw rfl
        refine ⟨?_, ?_, ?_, ?_, hrg, ?_, ?_⟩
        · intro q hqm
          simp only [List.mem_append, List.mem_singleton] at hqm
          rcases hqm with hqm | rfl
          · exact hsh q hqm
          · rw [hchild]
            exact hheldw e (List.mem_cons_self _ _) hsub
        · intro w hwm
          rcases List.mem_or_eq_of_mem_set hwm with hm | rfl
          · rcases mem_signal hsig hm with hm2 | rfl
            · exact hheld w hm2
            · trivial
          · intro e1 he1 hs1
            exact hheldw e1 (List.mem_cons_of_mem _ he1) hs1
        · intro x
          have h0 := sum_map_signal (fun w => (remaining fs cfg.RECURSIVE fuel w).count x)
            (by simp [remaining]) hsig
          have h1 := sum_map_set (fun w => (remaining fs cfg.RECURSIVE fuel w).count x) hw2
            (.listing path rest rf cf (off_t (total + eff.size)))
          have h2 := hev x
          simp only [remaining, List.flatMap_cons, entryEvents, hst, hsub, ← hreg, ← hchild,
            List.count_append, List.count_nil, if_true, List.map_append, List.sum_append,
            List.map_cons, List.sum_cons, List.map_nil, List.sum_nil] at h0 h1 h2 ⊢
          omega
        · have h0 := sum_map_signal_int localTotal (by simp [localTotal]) hsig
          have h1 := sum_map_set_int localTotal hw2 (.listing path rest rf cf (off_t (total + eff.size)))
          simp only [localTotal] at h1
          have hwrap := off_t_congr (total + eff.size)
          simp only [regularFiles_append, regularFiles_regular, totalSize_append, Nat.cast_add]
          omega
        · simp only [regularFiles_append, regularFiles_regular, hrows]
          cases cfg.OUTPUT <;> simp
        · intro x hx
          simp only [List.mem_append, List.mem_map] at hx
          rcases hx with hx | ⟨r, _, rfl⟩
          · exact hrd x hx
          · rfl
    | finish i =>
      obtain ⟨path, rf, cf, total, hw, hc⟩ := stepFinish_cases h
      rcases hc with ⟨_, rfl⟩ | ⟨_, _, rfl⟩ | ⟨hrf, hcf, rfl⟩
      · exact ⟨hsh, hheld, hev, hsz, hrg, hrows, hrd⟩
      · exact ⟨hsh, hheld, hev, hsz, hrg, hrows, hrd⟩
      · subst hrf hcf
        refine ⟨hsh, ?_, ?_, ?_, off_t_range _, hrows, hrd⟩
        · intro w hwm
          have hm : w ∈ s.workers.set i .ready ∨ w = .ready := by
            cases hr : cfg.RECURSIVE
            · simp only [hr, Bool.false_eq_true, if_false] at hwm
              exact Or.inl hwm
            · simp only [hr, if_true] at hwm
              exact mem_broadcast hwm
          rcases hm with hm | rfl
          · rcases List.mem_or_eq_of_mem_set hm with hm2 | rfl
            · exact hheld w hm2
            · trivial
          · trivial
        · intro x
          have h0 := sum_map_broadcast (fun w => (remaining fs cfg.RECURSIVE fuel w).count x)
            (by simp [remaining]) (s.workers.set i .ready)
          have h1 := sum_map_set (fun w => (remaining fs cfg.RECURSIVE fuel w).count x) hw
            .ready
          have h2 := hev x
          simp only [remaining, List.flatMap_nil, List.count_nil, listingEnd, Bool.or_self,
            Bool.false_eq_true, if_false, List.append_nil] at h0 h1 h2 ⊢
          cases hr : cfg.RECURSIVE <;> simp only [hr, Bool.false_eq_true, if_false, if_true] at * <;>
            omega
        · have h0 := sum_map_broadcast_int localTotal (by simp [localTotal]) (s.workers.set i .ready)
          have h1 := sum_map_set_int localTotal hw .ready
          simp only [localTotal] at h1
          cases hr : cfg.RECURSIVE <;>
            simp only [hr, Bool.false_eq_true, if_false, if_true, off_t] at h0 ⊢ <;>
            omega
    | spurious i =>
      obtain ⟨hw, rfl⟩ := stepSpurious_cases h
      refine ⟨hsh, ?_, ?_, ?_, hrg, hrows, hrd⟩
      · intro w hwm
        rcases List.mem_or_eq_of_mem_set hwm with hm | rfl
        · exact hheld w hm
        · trivial
      · intro x
        have h1 := sum_map_set (fun w => (remaining fs cfg.RECURSIVE fuel w).count x) hw .ready
        have h2 := hev x
        simp only [remaining, List.count_nil] at h1 h2 ⊢
        omega
      · have h1 := sum_map_set_int localTotal hw .ready
        simp only [localTotal] at h1
        simp only
        omega

theorem accounting_run {cfg : Config} {fs : FS} {fuel : Nat} {roots : List String}
    {sched : List Action} :
    ∀ {s t : State}, Accounting cfg fs fuel roots s → run cfg fs s sched = some t →
      Accounting cfg fs fuel roots t := by
  induction sched with
  | nil =>
    intro s t inv h
    simp only [Populate.run, Option.some.injEq] at h
    exact h ▸ inv
  | cons a rest ih =>
    intro s t inv h
    simp only [Populate.run] at h
    split at h
    · simp at h
    · rename_i u hu
      exact ih (accounting_step inv hu) h

/-! ## A completed run -/

theorem sum_map_zero (f : Worker → Nat) (ws : List Worker) (h : ∀ w ∈ ws, f w = 0) :
    (ws.map f).sum = 0 := by
  induction ws with
  | nil => rfl
  | cons a rest ih =>
    simp only [List.map_cons, List.sum_cons]
    rw [h a (List.mem_cons_self _ _), ih (fun w hw => h w (List.mem_cons_of_mem _ hw))]

theorem completed_run {cfg : Config} {fs : FS} {fuel : Nat} {roots : List String}
    {sched : List Action} {s : State} (hn : 1 ≤ cfg.NTHREADS)
    (hfin : ∀ r ∈ roots, depthWithin fs cfg.RECURSIVE fuel r = true)
    (hrun : run cfg fs (main cfg roots) sched = some s) (hdone : Completed s) :
    s.global_queue = [] ∧
    List.Perm s.history (walkRoots fs cfg.RECURSIVE fuel roots) ∧
    s.global_size = off_t (totalSize (regularFiles s.history)) ∧
    s.inserted = (if cfg.OUTPUT then regularFiles s.history else []) ∧
    Accounting cfg fs fuel roots s := by
  have book := bookkeeping_run (bookkeeping_init cfg roots) hrun
  have hlive : (main cfg roots).died = none := by
    cases hd : (main cfg roots).died with
    | none => rfl
    | some f =>
      have := run_dead hd hrun
      rw [this] at hdone
      rw [hdone.1] at hd
      simp at hd
  have acc := accounting_run (accounting_init cfg fs fuel roots hfin hlive) hrun
  obtain ⟨_, hex⟩ := hdone
  have hq : s.global_queue = [] := by
    have hne : s.workers ≠ [] := by
      intro hnil
      have := book.threads
      rw [hnil] at this
      simp at this
      omega
    obtain ⟨w, hw⟩ := List.exists_mem_of_ne_nil _ hne
    have hpos : 0 < exitedCount s.workers :=
      List.countP_pos_iff.mpr ⟨w, hw, by rw [hex w hw]; rfl⟩
    have := (book.gone hpos).1
    exact List.length_eq_zero.mp this
  refine ⟨hq, ?_, ?_, acc.rows, acc⟩
  · rw [List.perm_iff_count]
    intro x
    have h1 := acc.events x
    rw [sum_map_zero _ _ (fun w hw => by rw [hex w hw]; simp [remaining]), hq] at h1
    simpa using h1
  · have h1 := acc.sizes
    have h2 := acc.range
    rw [sum_map_zero_int _ _ (fun w hw => by rw [hex w hw]; rfl)] at h1
    unfold off_t
    omega

theorem totalSize_perm {a b : List Record} (h : List.Perm a b) : totalSize a = totalSize b :=
  (h.map Record.size).sum_eq

theorem regularFiles_perm {a b : List Event} (h : List.Perm a b) :
    List.Perm (regularFiles a) (regularFiles b) :=
  h.filterMap _

theorem unique_step {cfg : Config} {fs : FS} {s t : State} {a : Action}
    (inv : (s.inserted.map Record.path).Nodup) (h : step cfg fs s a = some t) :
    (t.inserted.map Record.path).Nodup := by
  unfold Populate.step at h
  split at h
  · simp at h
  · cases a with
    | pop i =>
      obtain ⟨_, hc⟩ := stepPop_cases h
      rcases hc with ⟨p, rest, _, rfl⟩ | ⟨_, _, rfl⟩ | ⟨_, _, _, rfl⟩ <;> exact inv
    | opendir i =>
      obtain ⟨path, _, hc⟩ := stepOpendir_cases h
      rcases hc with ⟨_, rfl⟩ | ⟨d, _, rfl⟩ <;> exact inv
    | entry i k =>
      rcases stepEntry_fresh h with heq | ⟨r, hr, heq⟩
      · rw [heq]; exact inv
      · rw [heq, List.map_append, List.map_singleton]
        exact List.Nodup.append inv (List.nodup_singleton _) (by simpa using hr)
    | finish i =>
      obtain ⟨path, rf, cf, total, _, hc⟩ := stepFinish_cases h
      rcases hc with ⟨_, rfl⟩ | ⟨_, _, rfl⟩ | ⟨_, _, rfl⟩ <;> exact inv
    | spurious i =>
      obtain ⟨_, rfl⟩ := stepSpurious_cases h
      exact inv

theorem unique_run {cfg : Config} {fs : FS} {sched : List Action} :
    ∀ {s t : State}, (s.inserted.map Record.path).Nodup → run cfg fs s sched = some t →
      (t.inserted.map Record.path).Nodup := by
  induction sched with
  | nil =>
    intro s t inv h
    simp only [Populate.run, Option.some.injEq] at h
    exact h ▸ inv
  | cons a rest ih =>
    intro s t inv h
    simp only [Populate.run] at h
    split at h
    · simp at h
    · rename_i u hu
      exact ih (unique_step inv hu) h

/-! ## Aggregate size -/

/-- C2, as stated, fails: with OUTPUT off (the setting of the source) and the roots /a
and /a/b, /a holding f1 (100 bytes) and /a/b holding f2 (50 bytes), a completed run
ends with global_size = 200, while the regular files reachable from the roots are
/a/f1 and /a/b/f2, 150 bytes in all: f2 is counted once for each root it is below. -/
theorem overlapping_roots_count_twice :
    run (plainConfig true) scenarioFS (main (plainConfig true) ["/a", "/a/b"])
      overlapSchedule = some overlapFinal ∧
    Completed overlapFinal ∧
    overlapFinal.global_size = 200 ∧
    (regularFiles (walkRoots scenarioFS true 2 ["/a", "/a/b"])).dedup =
      [⟨"/a/f1", 1000, 100⟩, ⟨"/a/b/f2", 2000, 50⟩] ∧
    totalSize ((regularFiles (walkRoots scenarioFS true 2 ["/a", "/a/b"])).dedup) = 150 ∧
    overlapFinal.global_size ≠
      totalSize ((regularFiles (walkRoots scenarioFS true 2 ["/a", "/a/b"])).dedup) := by
  decide

/-- C2, amended. Recursive mode, any tree of bounded depth, any list of roots, any
number of workers >= 1, any schedule that ends with all workers exited and the
process alive. The final global_size is the off_t value (64 bits, two's complement)
of the sum of the sizes of the regular files the independent walk meets, root after
root, a file below two of the given roots counting once for each; it is that sum
itself when the sum is below 2^63. The walk meets no failing path. When no file is
below two of the given roots, the sum is over the set of reachable regular files;
with OUTPUT on this is always so in a completed run, and the files are the records
handed to insert. -/
theorem aggregate_size_recursive (cfg : Config) (fs : FS) (fuel : Nat) (roots : List String)
    (sched : List Action) (s : State)
    (hrec : cfg.RECURSIVE = true) (hn : 1 ≤ cfg.NTHREADS)
    (hfin : ∀ r ∈ roots, depthWithin fs true fuel r = true)
    (hrun : run cfg fs (main cfg roots) sched = some s) (hdone : Completed s) :
    s.global_size = off_t (totalSize (regularFiles (walkRoots fs true fuel roots))) ∧
    (totalSize (regularFiles (walkRoots fs true fuel roots)) < 9223372036854775808 →
      s.global_size = totalSize (regularFiles (walkRoots fs true fuel roots))) ∧
    (∀ x ∈ walkRoots fs true fuel roots, x.isUnreadable = false) ∧
    s.global_size = off_t (totalSize (regularFiles s.history)) ∧
    (((regularFiles (walkRoots fs true fuel roots)).map Record.path).Nodup →
      s.global_size =
        off_t (totalSize ((regularFiles (walkRoots fs true fuel roots)).dedup))) ∧
    (cfg.OUTPUT = true →
      List.Perm s.inserted (regularFiles (walkRoots fs true fuel roots)) ∧
      s.global_size = off_t (totalSize s.inserted) ∧
      ((regularFiles (walkRoots fs true fuel roots)).map Record.path).Nodup) := by
  have hfin2 : ∀ r ∈ roots, depthWithin fs cfg.RECURSIVE fuel r = true := by
    rw [hrec]; exact hfin
  obtain ⟨_, hperm, hsize, hrows, acc⟩ := completed_run hn hfin2 hrun hdone
  rw [hrec] at hperm
  have hwalk : s.global_size =
      off_t (totalSize (regularFiles (walkRoots fs true fuel roots))) := by
    rw [hsize, totalSize_perm (regularFiles_perm hperm)]
  refine ⟨hwalk, ?_, fun x hx => acc.readable x (hperm.mem_iff.mpr hx), hsize, ?_, ?_⟩
  · intro hlt
    rw [hwalk]
    exact off_t_of_range (by omega) (by omega)
  · intro hnd
    rw [List.Nodup.dedup (List.Nodup.of_map _ hnd)]
    exact hwalk
  · intro hout
    rw [hout] at hrows
    simp only [if_true] at hrows
    refine ⟨by rw [hrows]; exact regularFiles_perm hperm, by rw [hrows, hsize], ?_⟩
    have hnd := unique_run (t := s) (by simp [Populate.main]) hrun
    rw [hrows] at hnd
    exact ((regularFiles_perm hperm).map Record.path).nodup_iff.mp hnd

/-- C2, amended, on the scenario: root /a holding f1 (100 bytes) and subdirectory /a/b
holding f2 (50 bytes), two workers: the final global_size is 150. -/
theorem aggregate_size_recursive_witness :
    (scenarioConfig true).RECURSIVE = true ∧ 1 ≤ (scenarioConfig true).NTHREADS ∧
    (∀ r ∈ ["/a"], depthWithin scenarioFS true 2 r = true) ∧
    run (scenarioConfig true) scenarioFS (main (scenarioConfig true) ["/a"]) scenarioSchedule =
      some { scenarioDrained with workers := [.exited, .exited] } ∧
    Completed { scenarioDrained with workers := [.exited, .exited] } ∧
    totalSize (regularFiles (walkRoots scenarioFS true 2 ["/a"])) = 150 ∧
    (({ scenarioDrained with workers := [.exited, .exited] } : State).global_size =
        off_t (totalSize (regularFiles (walkRoots scenarioFS true 2 ["/a"]))) ∧
      (totalSize (regularFiles (walkRoots scenarioFS true 2 ["/a"])) < 9223372036854775808 →
        ({ scenarioDrained with workers := [.exited, .exited] } : State).global_size =
          totalSize (regularFiles (walkRoots scenarioFS true 2 ["/a"]))) ∧
      (∀ x ∈ walkRoots scenarioFS true 2 ["/a"], x.isUnreadable = false) ∧
      ({ scenarioDrained with workers := [.exited, .exited] } : State).global_size =
        off_t (totalSize (regularFiles
          ({ scenarioDrained with workers := [.exited, .exited] } : State).history)) ∧
      (((regularFiles (walkRoots scenarioFS true 2 ["/a"])).map Record.path).Nodup →
        ({ scenarioDrained with workers := [.exited, .exited] } : State).global_size =
          off_t (totalSize ((regularFiles (walkRoots scenarioFS true 2 ["/a"])).dedup))) ∧
      ((scenarioConfig true).OUTPUT = true →
        List.Perm ({ scenarioDrained with workers := [.exited, .exited] } : State).inserted
          (regularFiles (walkRoots scenarioFS true 2 ["/a"])) ∧
        ({ scenarioDrained with workers := [.exited, .exited] } : State).global_size =
          off_t (totalSize
            ({ scenarioDrained with workers := [.exited, .exited] } : State).inserted) ∧
        ((regularFiles (walkRoots scenarioFS true 2 ["/a"])).map Record.path).Nodup)) :=
  ⟨rfl, by decide, by decide, by decide, by decide, by decide,
    aggregate_size_recursive (scenarioConfig true) scenarioFS 2 ["/a"] scenarioSchedule
      { scenarioDrained with workers := [.exited, .exited] } rfl (by decide) (by decide)
      (by decide) (by decide)⟩

/-! ## Which files and directories a run visits -/

/-- C3, as stated, fails: with the roots /a and /a/b (the second below the first), a
completed run opens the directory /a/b twice. -/
theorem nested_roots_visit_twice :
    run (scenarioConfig true) nestedFS (main (scenarioConfig true) ["/a", "/a/b"])
      nestedSchedule = some nestedFinal ∧
    Completed nestedFinal ∧
    openedDirs nestedFinal.history = ["/a/b", "/a", "/a/b"] ∧
    ¬ (openedDirs nestedFinal.history).Nodup := by
  decide

/-- C3, amended. In every completed run with OUTPUT on (any number of workers >= 1,
any schedule, either mode), the regular-file paths handed to insert have no
duplicates and are, up to order, exactly the regular-file paths the sequential walk
of the root list meets: no file is omitted and none is handed over twice (a second
insert of a path ends the process in insert). The directories opened are, up to
order, the directories that walk opens, root after root: a directory below two of
the given roots is opened once for each. That walk meets no failing path. -/
theorem inserted_paths_follow_walk (cfg : Config) (fs : FS) (fuel : Nat)
    (roots : List String) (sched : List Action) (s : State)
    (hout : cfg.OUTPUT = true) (hn : 1 ≤ cfg.NTHREADS)
    (hfin : ∀ r ∈ roots, depthWithin fs cfg.RECURSIVE fuel r = true)
    (hrun : run cfg fs (main cfg roots) sched = some s) (hdone : Completed s) :
    (s.inserted.map Record.path).Nodup ∧
    List.Perm (s.inserted.map Record.path)
      ((regularFiles (walkRoots fs cfg.RECURSIVE fuel roots)).map Record.path) ∧
    List.Perm (openedDirs s.history) (openedDirs (walkRoots fs cfg.RECURSIVE fuel roots)) ∧
    (∀ x ∈ walkRoots fs cfg.RECURSIVE fuel roots, x.isUnreadable = false) := by
  obtain ⟨_, hperm, _, hrows, acc⟩ := completed_run hn hfin hrun hdone
  rw [hout] at hrows
  simp only [if_true] at hrows
  refine ⟨unique_run (by simp [Populate.main]) hrun, ?_, hperm.filterMap _,
    fun x hx => acc.readable x (hperm.mem_iff.mpr hx)⟩
  rw [hrows]
  exact (regularFiles_perm hperm).map _

/-- C3, amended, on the scenario with the single root /a: /a/f1 and /a/b/f2 are handed
to insert once each, and /a and /a/b are opened once each. -/
theorem inserted_paths_follow_walk_witness :
    (scenarioConfig true).OUTPUT = true ∧ 1 ≤ (scenarioConfig true).NTHREADS ∧
    (∀ r ∈ ["/a"], depthWithin scenarioFS (scenarioConfig true).RECURSIVE 2 r = true) ∧
    run (scenarioConfig true) scenarioFS (main (scenarioConfig true) ["/a"]) scenarioSchedule =
      some { scenarioDrained with workers := [.exited, .exited] } ∧
    Completed { scenarioDrained with workers := [.exited, .exited] } ∧
    (regularFiles (walkRoots scenarioFS (scenarioConfig true).RECURSIVE 2 ["/a"])).map
      Record.path = ["/a/f1", "/a/b/f2"] ∧
    ((({ scenarioDrained with workers := [.exited, .exited] } : State).inserted.map
        Record.path).Nodup ∧
    List.Perm
      (({ scenarioDrained with workers := [.exited, .exited] } : State).inserted.map Record.path)
      ((regularFiles (walkRoots scenarioFS (scenarioConfig true).RECURSIVE 2 ["/a"])).map
        Record.path) ∧
    List.Perm
      (openedDirs ({ scenarioDrained with workers := [.exited, .exited] } : State).history)
      (openedDirs (walkRoots scenarioFS (scenarioConfig true).RECURSIVE 2 ["/a"])) ∧
    (∀ x ∈ walkRoots scenarioFS (scenarioConfig true).RECURSIVE 2 ["/a"],
      x.isUnreadable = false)) :=
  ⟨rfl, by decide, by decide, by decide, by decide, by decide,
    inserted_paths_follow_walk (scenarioConfig true) scenarioFS 2 ["/a"] scenarioSchedule
      { scenarioDrained with workers := [.exited, .exited] } rfl (by decide) (by decide)
      (by decide) (by decide)⟩

/-! ## Non-recursive mode -/

theorem flat_step {cfg : Config} {fs : FS} {s t : State} {a : Action}
    (hflat : cfg.RECURSIVE = false) (h : step cfg fs s a = some t) :
    t.global_queue.length ≤ s.global_queue.length := by
  unfold Populate.step at h
  split at h
  · simp at h
  · cases a with
    | pop i =>
      obtain ⟨_, hc⟩ := stepPop_cases h
      rcases hc with ⟨p, rest, hq, rfl⟩ | ⟨_, _, rfl⟩ | ⟨_, _, _, rfl⟩
      · simp [hq]
      · exact Nat.le_refl _
      · exact Nat.le_refl _
    | opendir i =>
      obtain ⟨path, _, hc⟩ := stepOpendir_cases h
      rcases hc with ⟨_, rfl⟩ | ⟨d, _, rfl⟩ <;> exact Nat.le_refl _
    | entry i k =>
      obtain ⟨path, e, rest, rf, cf, total, _, hc⟩ := stepEntry_cases h
      rcases hc with ⟨f, _, rfl⟩ | ⟨eff, hb, ⟨_, rfl⟩ | ⟨child, ws, hp, _, rfl⟩⟩
      · exact Nat.le_refl _
      · exact Nat.le_refl _
      · have := (loopBody_push_recursive hb hp).1
        rw [hflat] at this
        simp at this
    | finish i =>
      obtain ⟨path, rf, cf, total, _, hc⟩ := stepFinish_cases h
      rcases hc with ⟨_, rfl⟩ | ⟨_, _, rfl⟩ | ⟨_, _, rfl⟩ <;> exact Nat.le_refl _
    | spurious i =>
      obtain ⟨_, rfl⟩ := stepSpurious_cases h
      exact Nat.le_refl _

theorem flat_run {cfg : Config} {fs : FS} (hflat : cfg.RECURSIVE = false)
    {sched : List Action} :
    ∀ {s t : State}, run cfg fs s sched = some t →
      t.global_queue.length ≤ s.global_queue.length := by
  induction sched with
  | nil =>
    intro s t h
    simp only [Populate.run, Option.some.injEq] at h
    rw [h]
  | cons a rest ih =>
    intro s t h
    simp only [Populate.run] at h
    split at h
    · simp at h
    · rename_i u hu
      exact Nat.le_trans (ih h) (flat_step hflat hu)

theorem run_append {cfg : Config} {fs : FS} (a b : List Action) :
    ∀ {s t u : State}, run cfg fs s a = some t → run cfg fs t b = some u →
      run cfg fs s (a ++ b) = some u := by
  induction a with
  | nil =>
    intro s t u h1 h2
    simp only [Populate.run, Option.some.injEq] at h1
    rw [h1]
    exact h2
  | cons x rest ih =>
    intro s t u h1 h2
    simp only [Populate.run, List.cons_append] at h1 ⊢
    split at h1
    · simp at h1
    · rename_i v hv
      exact ih h1 h2

theorem entryEvents_flat (g : String → List Event) (r : String) (e : Dirent) :
    regularFiles (entryEvents g false r e) = (regularOf r e).toList ∧
    openedDirs (entryEvents g false r e) = [] := by
  cases hst : e.st with
  | none => simp [entryEvents, regularOf, hst, regularFiles, openedDirs, Event.record?,
      Event.opened?]
  | some st =>
    simp only [entryEvents, hst, Bool.false_and, Bool.false_eq_true, if_false, List.append_nil]
    refine ⟨regularFiles_regular _, ?_⟩
    cases regularOf r e <;> simp [openedDirs, Event.opened?]

theorem listingEnd_flat (r : String) (rf cf : Bool) :
    regularFiles (listingEnd r rf cf) = [] ∧ openedDirs (listingEnd r rf cf) = [] := by
  cases rf <;> cases cf <;>
    simp [listingEnd, regularFiles, openedDirs, Event.record?, Event.opened?]

theorem openedDirs_append (a b : List Event) :
    openedDirs (a ++ b) = openedDirs a ++ openedDirs b := by
  simp [openedDirs]

theorem walk_flat (fs : FS) (r : String) :
    depthWithin fs false 1 r = true ∧
    totalSize (regularFiles (walk fs false 1 r)) = directSize fs r ∧
    (fs r ≠ none → openedDirs (walk fs false 1 r) = [r]) ∧
    (fs r = none → Event.unreadable r ∈ walk fs false 1 r) := by
  have hreg : ∀ (g : String → List Event) (l : List Dirent),
      regularFiles (l.flatMap (entryEvents g false r)) = l.filterMap (regularOf r) := by
    intro g l
    induction l with
    | nil => rfl
    | cons e rest ih =>
      simp only [List.flatMap_cons, regularFiles_append, ih, (entryEvents_flat g r e).1,
        List.filterMap_cons]
      cases regularOf r e <;> simp
  have hdir : ∀ (g : String → List Event) (l : List Dirent),
      openedDirs (l.flatMap (entryEvents g false r)) = [] := by
    intro g l
    induction l with
    | nil => rfl
    | cons e rest ih =>
      simp only [List.flatMap_cons, openedDirs_append, ih, (entryEvents_flat g r e).2,
        List.append_nil]
  cases hfs : fs r with
  | none => simp [depthWithin, walk, hfs, directSize, regularFiles, totalSize, Event.record?]
  | some d =>
    refine ⟨by simp [depthWithin, hfs], ?_, ?_, by simp⟩
    · rw [walk]
      simp only [hfs, directSize]
      rw [← hreg (walk fs false 0) d.entries]
      have h1 : regularFiles [Event.opendir r] = [] := rfl
      rw [← List.singleton_append, regularFiles_append, regularFiles_append, h1,
        (listingEnd_flat r _ _).1]
      simp
    · intro _
      rw [walk]
      simp only [hfs]
      have h1 : openedDirs [Event.opendir r] = [r] := rfl
      rw [← List.singleton_append, openedDirs_append, openedDirs_append, h1,
        hdir (walk fs false 0) d.entries, (listingEnd_flat r _ _).2]
      rfl

theorem walkRoots_flat (fs : FS) (roots : List String) :
    totalSize (regularFiles (walkRoots fs false 1 roots)) = (roots.map (directSize fs)).sum ∧
    ((∀ x ∈ walkRoots fs false 1 roots, x.isUnreadable = false) →
      openedDirs (walkRoots fs false 1 roots) = roots) := by
  induction roots with
  | nil => exact ⟨rfl, fun _ => rfl⟩
  | cons r rest ih =>
    obtain ⟨_, h2, h3, h4⟩ := walk_flat fs r
    simp only [walkRoots, List.flatMap_cons, regularFiles_append, totalSize_append,
      List.map_cons, List.sum_cons] at ih ⊢
    refine ⟨by rw [h2, ih.1], ?_⟩
    intro hall
    have hr : fs r ≠ none := by
      intro hnone
      have := hall _ (List.mem_append_left _ (h4 hnone))
      simp [Event.isUnreadable] at this
    have hrest := ih.2 (fun x hx => hall x (List.mem_append_right _ hx))
    simp only [openedDirs, List.filterMap_append] at hrest ⊢
    rw [hrest]
    have := h3 hr
    simp only [openedDirs] at this
    rw [this]
    rfl

theorem opendir_mem_walkRoots_flat {fs : FS} {roots : List String} {p : String}
    (h : Event.opendir p ∈ walkRoots fs false 1 roots) : p ∈ roots := by
  simp only [walkRoots, List.mem_flatMap] at h
  obtain ⟨r, hr, hmem⟩ := h
  have hp : p ∈ openedDirs (walk fs false 1 r) := by
    simp only [openedDirs, List.mem_filterMap]
    exact ⟨_, hmem, rfl⟩
  cases hfs : fs r with
  | none =>
    rw [walk] at hmem
    simp [hfs] at hmem
  | some d =>
    rw [(walk_flat fs r).2.2.1 (by simp [hfs])] at hp
    simp only [List.mem_singleton] at hp
    rw [hp]
    exact hr

/-- C6, as stated, fails: with OUTPUT off (the setting of the source), RECURSIVE off
and the root /a given twice, /a holding f1 (100 bytes), a completed run ends with
global_size = 200, while the regular files directly inside the roots are /a/f1
alone, 100 bytes: f1 is counted once for each time its directory is given. -/
theorem repeated_root_counts_twice :
    run (plainConfig false) scenarioFS (main (plainConfig false) ["/a", "/a"])
      repeatSchedule = some repeatFinal ∧
    Completed repeatFinal ∧
    repeatFinal.global_size = 200 ∧
    ((["/a", "/a"].dedup).map (directSize scenarioFS)).sum = 100 ∧
    repeatFinal.global_size ≠ ((["/a", "/a"].dedup).map (directSize scenarioFS)).sum := by
  decide

/-- C6, amended. Non-recursive mode: with RECURSIVE off no step pushes onto the queue,
so along every run the pending queue never gets longer, and is never longer than the
seeded root list; every directory opened is one of the seeded roots; and when a run
has completed (workers >= 1), the directories opened are exactly the seeded roots,
each once for each time it is given, and the final global_size is the off_t value
(64 bits, two's complement) of the sum, over the root list, of the sizes of the
regular files directly inside each root: that sum itself when it is below 2^63, and
a sum over the set of roots when no root is given twice. -/
theorem nonrecursive_mode (cfg : Config) (fs : FS) (roots : List String)
    (before after : List Action) (s t : State)
    (hflat : cfg.RECURSIVE = false)
    (hrun1 : run cfg fs (main cfg roots) before = some s)
    (hrun2 : run cfg fs s after = some t) :
    t.global_queue.length ≤ s.global_queue.length ∧
    s.global_queue.length ≤ roots.length ∧
    (∀ p ∈ openedDirs t.history, p ∈ roots) ∧
    (1 ≤ cfg.NTHREADS → Completed t →
      List.Perm (openedDirs t.history) roots ∧
      t.global_size = off_t ((roots.map (directSize fs)).sum : Nat) ∧
      ((roots.map (directSize fs)).sum < 9223372036854775808 →
        t.global_size = ((roots.map (directSize fs)).sum : Nat)) ∧
      (roots.Nodup →
        t.global_size = off_t ((roots.dedup.map (directSize fs)).sum : Nat))) := by
  have hfin : ∀ r ∈ roots, depthWithin fs cfg.RECURSIVE 1 r = true := by
    intro r _
    rw [hflat]
    exact (walk_flat fs r).1
  have hrun := run_append before after hrun1 hrun2
  have hopened : ∀ u : State, (∀ x : Event,
      0 < u.history.count x → 0 < (walkRoots fs cfg.RECURSIVE 1 roots).count x) →
      ∀ p ∈ openedDirs u.history, p ∈ roots := by
    intro u hu p hp
    have hmem : Event.opendir p ∈ u.history := by
      simp only [openedDirs, List.mem_filterMap] at hp
      obtain ⟨x, hx, hxp⟩ := hp
      cases x <;> simp [Event.opened?] at hxp
      rw [← hxp]
      exact hx
    have hpos2 := hu _ (List.count_pos_iff.mpr hmem)
    rw [hflat] at hpos2
    exact opendir_mem_walkRoots_flat (List.count_pos_iff.mp hpos2)
  refine ⟨flat_run hflat hrun2, ?_, ?_, ?_⟩
  · exact Nat.le_trans (flat_run hflat hrun1) (main_queue_le cfg roots)
  · cases hd : (main cfg roots).died with
    | some f =>
      have ht := run_dead hd hrun
      intro p hp
      rw [ht] at hp
      simp [Populate.main, openedDirs] at hp
    | none =>
      have acc := accounting_run (accounting_init cfg fs 1 roots hfin hd) hrun
      apply hopened t
      intro x hx
      have := acc.events x
      omega
  · intro hn hdone
    obtain ⟨_, hperm, hsize, _, acc⟩ := completed_run hn hfin hrun hdone
    rw [hflat] at hperm
    obtain ⟨hsum, hopen⟩ := walkRoots_flat fs roots
    have hval : t.global_size = off_t ((roots.map (directSize fs)).sum : Nat) := by
      rw [hsize, totalSize_perm (regularFiles_perm hperm), hsum]
    refine ⟨?_, hval, ?_, ?_⟩
    · have h1 : List.Perm (openedDirs t.history) (openedDirs (walkRoots fs false 1 roots)) :=
        hperm.filterMap _
      rw [hopen (fun x hx => acc.readable x (hperm.mem_iff.mpr hx))] at h1
      exact h1
    · intro hlt
      rw [hval]
      exact off_t_of_range (by omega) (by omega)
    · intro hnd
      rw [List.Nodup.dedup hnd]
      exact hval

/-- C6, amended, on the scenario: root /a holding f1 (100 bytes) and subdirectory /a/b
holding f2 (50 bytes), RECURSIVE off: only /a is opened and the final global_size is
100. -/
theorem nonrecursive_mode_witness :
    (scenarioConfig false).RECURSIVE = false ∧
    run (scenarioConfig false) scenarioFS (main (scenarioConfig false) ["/a"]) [] =
      some (main (scenarioConfig false) ["/a"]) ∧
    run (scenarioConfig false) scenarioFS (main (scenarioConfig false) ["/a"]) flatSchedule =
      some flatFinal ∧
    1 ≤ (scenarioConfig false).NTHREADS ∧ Completed flatFinal ∧
    flatFinal.global_size = 100 ∧ (["/a"].map (directSize scenarioFS)).sum = 100 ∧
    (flatFinal.global_queue.length ≤ (main (scenarioConfig false) ["/a"]).global_queue.length ∧
    (main (scenarioConfig false) ["/a"]).global_queue.length ≤ ["/a"].length ∧
    (∀ p ∈ openedDirs flatFinal.history, p ∈ ["/a"]) ∧
    (1 ≤ (scenarioConfig false).NTHREADS → Completed flatFinal →
      List.Perm (openedDirs flatFinal.history) ["/a"] ∧
      flatFinal.global_size = off_t ((["/a"].map (directSize scenarioFS)).sum : Nat) ∧
      ((["/a"].map (directSize scenarioFS)).sum < 9223372036854775808 →
        flatFinal.global_size = ((["/a"].map (directSize scenarioFS)).sum : Nat)) ∧
      (["/a"].Nodup →
        flatFinal.global_size =
          off_t ((["/a"].dedup.map (directSize scenarioFS)).sum : Nat)))) :=
  ⟨rfl, rfl, by decide, by decide, by decide, rfl, by decide,
    nonrecursive_mode (scenarioConfig false) scenarioFS ["/a"] [] flatSchedule
      (main (scenarioConfig false) ["/a"]) flatFinal rfl rfl (by decide)⟩

/-! ## The capacity of the queue -/

theorem seed_full (cfg : Config) :
    ∀ (roots q : List String), q.length ≤ cfg.MAXDIRS → cfg.MAXDIRS < q.length + roots.length →
      seed cfg q roots = none := by
  intro roots
  induction roots with
  | nil =>
    intro q h1 h2
    simp only [List.length_nil] at h2
    omega
  | cons r rest ih =>
    intro q h1 h2
    simp only [seed]
    rcases push_cases cfg q r with ⟨hlt, hp⟩ | ⟨_, hp⟩
    · rw [hp]
      apply ih
      · simp only [List.length_append, List.length_singleton]
        omega
      · simp only [List.length_append, List.length_singleton, List.length_cons] at h2 ⊢
        omega
    · rw [hp]

/-- C4. The code makes no test of global_queue_len against MAXDIRS, at either push
site. When a running worker reads an entry that is a subdirectory (RECURSIVE on)
while MAXDIRS directories are pending, the store of the child path goes past the
end of the array global_queue: undefined behaviour, not a CapacityExceeded error
raised by the program. When main is given more than MAXDIRS roots, its seeding loop
makes the same store past the end of the array. -/
theorem full_queue_push_overruns (cfg : Config) (fs : FS) (roots : List String) (s : State)
    (i k : Nat) (path : String) (e : Dirent) (rest : List Dirent) (rf cf : Bool) (total : Int)
    (hlive : s.died = none) (hrec : cfg.RECURSIVE = true)
    (hw : s.workers[i]? = some (.listing path (e :: rest) rf cf total))
    (hsub : isSubdir e = true) (hfull : cfg.MAXDIRS ≤ s.global_queue_len) :
    push cfg s.global_queue (childPath path e.d_name) = none ∧
    step cfg fs s (.entry i k) = some { s with died := some .overrun } ∧
    (cfg.MAXDIRS < roots.length → (main cfg roots).died = some .overrun) := by
  have hst : ∃ st, e.st = some st := by
    unfold isSubdir at hsub
    cases hs : e.st with
    | none => simp [hs] at hsub
    | some st => exact ⟨st, rfl⟩
  obtain ⟨st, hst⟩ := hst
  have hsub2 : (S_ISDIR st.st_mode && (e.d_name != "." && e.d_name != "..")) = true := by
    simpa [isSubdir, hst] using hsub
  have hnot : ¬ s.global_queue.length < cfg.MAXDIRS := by
    simp only [State.global_queue_len] at hfull
    omega
  refine ⟨by simp [push, hnot], ?_, ?_⟩
  · simp [Populate.step, hlive, stepEntry, hw, loopBody, hst, hrec, hsub2, push, hnot]
  · intro hlong
    have hseed := seed_full cfg roots [] (Nat.zero_le _) (by simpa using hlong)
    have h1 : ¬ roots.length < 1 := by omega
    simp [Populate.main, hseed, h1]

/-- C4 on a queue of the small capacity 2: with /a/b and /a/c pending, the worker
listing /a reads the subdirectory d and stores /a/d past the end of the array; and
main given three roots overruns the array while seeding. -/
theorem full_queue_push_overruns_witness :
    run smallConfig wideFS (main smallConfig ["/a"])
      [.pop 0, .opendir 0, .entry 0 0, .entry 0 0] = some wideFull ∧
    wideFull.died = none ∧ smallConfig.RECURSIVE = true ∧
    wideFull.workers[0]? = some (.listing "/a" [⟨"d", some ⟨.dir, 0, 0⟩⟩] false false 0) ∧
    isSubdir ⟨"d", some ⟨.dir, 0, 0⟩⟩ = true ∧
    smallConfig.MAXDIRS ≤ wideFull.global_queue_len ∧
    (push smallConfig wideFull.global_queue (childPath "/a" "d") = none ∧
    step smallConfig wideFS wideFull (.entry 0 0) =
      some { wideFull with died := some .overrun } ∧
    (smallConfig.MAXDIRS < ["/r1", "/r2", "/r3"].length →
      (main smallConfig ["/r1", "/r2", "/r3"]).died = some .overrun)) :=
  ⟨by decide, rfl, rfl, rfl, by decide, by decide,
    full_queue_push_overruns smallConfig wideFS ["/r1", "/r2", "/r3"] wideFull 0 0 "/a"
      ⟨"d", some ⟨.dir, 0, 0⟩⟩ [] false false 0 rfl rfl rfl (by decide) (by decide)⟩

/-! ## A failed listing -/

/-- C8, as stated, fails: when fstatat fails on the entry x of /a, after f1 (100
bytes) has been read, the failing worker calls die with stat(x), which names the
entry and not the directory /a; at that point the subtotal 100 has not been added
to global_size, which is 0, and global_active has not been decremented: it is 1. -/
theorem failed_stat_is_fatal :
    run (scenarioConfig true) brokenFS (main (scenarioConfig true) ["/a"])
      [.pop 0, .opendir 0, .entry 0 0] = some brokenBefore ∧
    brokenBefore.workers[0]? = some (.listing "/a" [⟨"x", none⟩] false false 100) ∧
    step (scenarioConfig true) brokenFS brokenBefore (.entry 0 0) =
      some { brokenBefore with died := some (.stat "x") } ∧
    ({ brokenBefore with died := some (.stat "x") } : State).global_size = 0 ∧
    ({ brokenBefore with died := some (.stat "x") } : State).global_active = 1 := by
  decide

/-- C8, amended. When listing a directory fails, the failing worker calls die at that
point, for each of the four calls that can fail: opendir on the popped path dies
with opendir(path); fstatat on an entry dies with stat(d_name), naming the entry,
whatever subtotal the worker holds and whichever waiter a signal would wake;
readdir failing at the end of the listing dies with readdir(path); closedir failing
dies with closedir(path). In each case the step leaves every global as it was (the
state after it is the state before it, marked dead): the worker's subtotal is
not added to global_size, global_active is not decremented, and the queue is
untouched. -/
theorem listing_failure_is_fatal (cfg : Config) (fs : FS) (s : State) (i : Nat)
    (hlive : s.died = none) :
    (∀ path, s.workers[i]? = some (.popped path) → fs path = none →
      step cfg fs s (.opendir i) = some { s with died := some (.opendir path) }) ∧
    (∀ path e rest rf cf total k,
      s.workers[i]? = some (.listing path (e :: rest) rf cf total) → e.st = none →
      step cfg fs s (.entry i k) = some { s with died := some (.stat e.d_name) }) ∧
    (∀ path cf total, s.workers[i]? = some (.listing path [] true cf total) →
      step cfg fs s (.finish i) = some { s with died := some (.readdir path) }) ∧
    (∀ path total, s.workers[i]? = some (.listing path [] false true total) →
      step cfg fs s (.finish i) = some { s with died := some (.closedir path) }) := by
  refine ⟨?_, ?_, ?_, ?_⟩
  · intro path hw hfs
    simp [Populate.step, hlive, stepOpendir, hw, hfs]
  · intro path e rest rf cf total k hw hst
    simp [Populate.step, hlive, stepEntry, hw, loopBody, hst]
  · intro path cf total hw
    simp [Populate.step, hlive, stepFinish, hw]
  · intro path total hw
    simp [Populate.step, hlive, stepFinish, hw]

/-- C8, amended, on the broken directory: the worker listing /a holds the subtotal 100
and has the entry x to read; the failing fstatat on x ends in die with stat(x), and
global_size and global_active are as they were. -/
theorem listing_failure_is_fatal_witness :
    brokenBefore.died = none ∧
    brokenBefore.workers[0]? = some (.listing "/a" [⟨"x", none⟩] false false 100) ∧
    ((∀ path, brokenBefore.workers[0]? = some (.popped path) → brokenFS path = none →
      step (scenarioConfig true) brokenFS brokenBefore (.opendir 0) =
        some { brokenBefore with died := some (.opendir path) }) ∧
    (∀ path e rest rf cf total k,
      brokenBefore.workers[0]? = some (.listing path (e :: rest) rf cf total) →
      e.st = none →
      step (scenarioConfig true) brokenFS brokenBefore (.entry 0 k) =
        some { brokenBefore with died := some (.stat e.d_name) }) ∧
    (∀ path cf total, brokenBefore.workers[0]? = some (.listing path [] true cf total) →
      step (scenarioConfig true) brokenFS brokenBefore (.finish 0) =
        some { brokenBefore with died := some (.readdir path) }) ∧
    (∀ path total, brokenBefore.workers[0]? = some (.listing path [] false true total) →
      step (scenarioConfig true) brokenFS brokenBefore (.finish 0) =
        some { brokenBefore with died := some (.closedir path) })) :=
  ⟨rfl, rfl, listing_failure_is_fatal (scenarioConfig true) brokenFS brokenBefore 0 rfl⟩

end Populate
